import Mathlib

set_option maxHeartbeats 1000000

/-!
Shallow embedding of the SILGen result-plan machinery
(src/lib/SILGen/ResultPlan.cpp): the plan-node variants with their
finish methods, and the recursive ResultPlanBuilder.  External
collaborators (type lowering, abstraction-difference test, bridging,
reabstraction, destinations) are modelled as components of an explicit
environment; effects of finish are recorded in an event trace.
-/

/-- A lowered formal type (CanType/SILType collapsed): either a non-tuple
type identified by a tag, or a tuple of element types. -/
inductive CanType where
  | scalar (tag : Nat)
  | tuple (elts : List CanType)

/-- Tuple-ness of a type, as used by cast<TupleType>. -/
def CanType.isTuple : CanType → Bool
  | .tuple _ => true
  | .scalar _ => false

/-- An SSA value: an identity plus its formal type. -/
structure SILValue where
  id : Nat
  ty : CanType

/-- A value paired with its cleanup obligation; only identity and type are
tracked here. -/
structure ManagedValue where
  id : Nat
  ty : CanType

/-- An abstraction pattern: the declared, pre-substitution shape of a
result type.  `atom` is a non-tuple (possibly opaque) pattern. -/
inductive AbstractionPattern where
  | atom (tag : Nat)
  | tuple (elts : List AbstractionPattern)

/-- Tuple-ness of an abstraction pattern (AbstractionPattern::isTuple). -/
def AbstractionPattern.isTuple : AbstractionPattern → Bool
  | .tuple _ => true
  | .atom _ => false

/-- A destination (Initialization): an identity, an optional address for
in-place initialization, whether it can split into tuple elements, and
its element sub-destinations when split. -/
inductive Initialization where
  | mk (id : Nat) (inPlaceAddr : Option SILValue) (canSplit : Bool)
      (subInits : List Initialization)

def Initialization.id : Initialization → Nat
  | .mk i _ _ _ => i

def Initialization.getAddressForInPlaceInitialization :
    Initialization → Option SILValue
  | .mk _ a _ _ => a

def Initialization.canSplitIntoTupleElements : Initialization → Bool
  | .mk _ _ c _ => c

def Initialization.splitIntoTupleElements : Initialization → List Initialization
  | .mk _ _ _ es => es

/-- A temporary buffer allocated by emitTemporary: an identity and the
lowered type it stores. -/
structure TemporaryInitialization where
  id : Nat
  ty : CanType

/-- The address of the temporary's buffer (TemporaryInitialization::getAddress). -/
def TemporaryInitialization.getAddress (t : TemporaryInitialization) : SILValue :=
  ⟨t.id, t.ty⟩

/-- The managed address of the temporary (getManagedAddress). -/
def TemporaryInitialization.getManagedAddress
    (t : TemporaryInitialization) : ManagedValue :=
  ⟨t.id, t.ty⟩

/-- Calling-convention representation tag (SILFunctionTypeRepresentation),
kept abstract. -/
abbrev SILFunctionTypeRepresentation := Nat

/-- One result descriptor from the callee signature (SILResultInfo):
directness, formal type and SIL storage type. -/
structure SILResultInfo where
  indirect : Bool
  type : CanType
  silStorageType : CanType

/-- The outcome of type lowering for one type: the lowered type and
whether it is address-only. -/
structure TypeLowering where
  loweredType : CanType
  addressOnly : Bool

/-- The environment of external collaborators consulted by the builder and
by finish: type lowering, abstraction-difference test, calling-convention
language, bridging, reabstraction, loads and tuple formation. -/
structure SILGenFunction where
  rep : SILFunctionTypeRepresentation
  getTypeLowering : CanType → TypeLowering
  hasAbstractionDifference :
      SILFunctionTypeRepresentation → CanType → CanType → Bool
  silFunctionLanguageIsC : SILFunctionTypeRepresentation → Bool
  emitBridgedToNativeValue :
      SILFunctionTypeRepresentation → ManagedValue → CanType → ManagedValue
  emitOrigToSubstValue :
      ManagedValue → AbstractionPattern → CanType → ManagedValue
  emitOrigToSubstIntoContext :
      ManagedValue → AbstractionPattern → CanType → Initialization → Bool
  emitLoad : CanType → ManagedValue → ManagedValue
  mkTupleValue : List ManagedValue → ManagedValue

mutual

/-- Modelled from the spec: a TemporaryInitialization used as a tuple
destination (its class is outside src/).  Per the destination-capability
contract, a single-buffer temporary yields its buffer address for in-place
writing and splits into per-element sub-destinations, which are themselves
buffer destinations for the element types.  Identities are assigned by a
counter threaded through the elements. -/
def bufferInit (base : Nat) (ty : CanType) : Initialization × Nat :=
  match ty with
  | .scalar n => (.mk base (some ⟨base, .scalar n⟩) true [], base + 1)
  | .tuple elts =>
      let (children, next) := bufferInits (base + 1) elts
      (.mk base (some ⟨base, .tuple elts⟩) true children, next)

/-- Modelled from the spec: the per-element sub-destinations of a buffer
destination (see bufferInit). -/
def bufferInits (base : Nat) (tys : List CanType) : List Initialization × Nat :=
  match tys with
  | [] => ([], base)
  | t :: ts =>
      let (child, next) := bufferInit base t
      let (children, next2) := bufferInits next ts
      (child :: children, next2)

end

/-- Modelled from the spec: view a whole temporary as a destination
(see bufferInit). -/
def tempAsInit (t : TemporaryInitialization) : Initialization :=
  (bufferInit t.id t.ty).1

/-- An r-value: empty/used, a single value, or a tuple of r-values. -/
inductive RValue where
  | used
  | scalar (value : ManagedValue)
  | tuple (elts : List RValue)

/-- Whether the r-value is the empty/used r-value. -/
def RValue.isUsed : RValue → Bool
  | .used => true
  | .scalar _ => false
  | .tuple _ => false

mutual

/-- Implode an r-value to one managed value (RValue::getAsSingleValue);
fails on an already-used r-value. -/
def RValue.getAsSingleValue (SGF : SILGenFunction) :
    RValue → Option ManagedValue
  | .used => none
  | .scalar v => some v
  | .tuple elts =>
      match RValue.getAsSingleValues SGF elts with
      | none => none
      | some vs => some (SGF.mkTupleValue vs)

/-- Implode each r-value of a list. -/
def RValue.getAsSingleValues (SGF : SILGenFunction) :
    List RValue → Option (List ManagedValue)
  | [] => some []
  | rv :: rvs =>
      match RValue.getAsSingleValue SGF rv with
      | none => none
      | some v =>
          match RValue.getAsSingleValues SGF rvs with
          | none => none
          | some vs => some (v :: vs)

end

mutual

/-- Number of leaf values held by an r-value. -/
def RValue.numValues : RValue → Nat
  | .used => 0
  | .scalar _ => 1
  | .tuple elts => RValue.numValuesL elts

/-- Total number of leaf values held by a list of r-values. -/
def RValue.numValuesL : List RValue → Nat
  | [] => 0
  | rv :: rvs => RValue.numValues rv + RValue.numValuesL rvs

end

/-- Externally observable steps taken while finishing a plan. -/
inductive TraceEvent where
  | finishInit (id : Nat)
  | copyOrInitValueInto (id : Nat)
  | finishTemporary (id : Nat)
  | loadTaken
  | bridgedToNative
  | origToSubst
  | emittedIntoContext (id : Nat)

/-- The plan-node tree (the anonymous-namespace ResultPlan classes). -/
inductive ResultPlan where
  | inPlaceInitialization (init : Initialization)
  | scalar (temporary : Option TemporaryInitialization)
      (origType : AbstractionPattern) (init : Option Initialization)
      (rep : SILFunctionTypeRepresentation)
  | initValueFromTemporary (init : Initialization) (subPlan : ResultPlan)
      (temporary : TemporaryInitialization)
  | initValueFromRValue (init : Initialization) (subPlan : ResultPlan)
  | tupleRValue (eltPlans : List ResultPlan)
  | tupleInitialization (tupleInit : Initialization)
      (eltInits : List Initialization) (eltPlans : List ResultPlan)

/-- The mutable builder state (ResultPlanBuilder): the descriptor queue,
the accumulated indirect-result address list, and a counter for fresh
temporaries. -/
structure ResultPlanBuilderState where
  allResults : List SILResultInfo
  indirectResultAddrs : List SILValue
  nextTemp : Nat

/-- Size of an abstraction pattern (for termination). -/
def psize : AbstractionPattern → Nat
  | .atom _ => 1
  | .tuple elts =>
      1 + (let rec go : List AbstractionPattern → Nat
            | [] => 0
            | p :: ps => psize p + go ps
          go elts)

/-- Size of a pattern list (for termination). -/
def psizeL : List AbstractionPattern → Nat
  | [] => 0
  | p :: ps => psize p + psizeL ps

theorem psize_tuple (elts : List AbstractionPattern) :
    psize (.tuple elts) = 1 + psizeL elts := by
  simp only [psize]
  induction elts with
  | nil => rfl
  | cons p ps ih =>
      simp only [psize.go, psizeL] at *
      omega

theorem psize_pos (p : AbstractionPattern) : 1 ≤ psize p := by
  cases p with
  | atom _ => simp [psize]
  | tuple elts => rw [psize_tuple]; omega

/-- Recursion rank of the destination argument of buildForTuple: the
self-recursive calls strictly lower it. -/
def rankInit : Option Initialization → Nat
  | none => 0
  | some i => if i.canSplitIntoTupleElements then 1 else 2

theorem tempAsInit_canSplit (t : TemporaryInitialization) :
    (tempAsInit t).canSplitIntoTupleElements = true := by
  unfold tempAsInit bufferInit
  cases t.ty <;> simp [Initialization.canSplitIntoTupleElements]

theorem rankInit_le (i : Option Initialization) : rankInit i ≤ 2 := by
  cases i with
  | none => simp [rankInit]
  | some j => simp only [rankInit]; split <;> omega

theorem build_measure_lt (i : Option Initialization)
    (qs : List AbstractionPattern) :
    5 * (psizeL qs + 1) + rankInit i <
      5 * psize (AbstractionPattern.tuple qs) + 3 := by
  have := rankInit_le i
  rw [psize_tuple]
  omega

theorem forTuple_to_elts (i : Option Initialization)
    (qs : List AbstractionPattern) :
    5 * psizeL qs + 4 < 5 * (psizeL qs + 1) + rankInit i := by
  have := Nat.zero_le (rankInit i)
  omega

theorem forTuple_self_temp (t : TemporaryInitialization) (i : Initialization)
    (qs : List AbstractionPattern)
    (h : ¬i.canSplitIntoTupleElements = true) :
    5 * (psizeL qs + 1) + rankInit (some (tempAsInit t)) <
      5 * (psizeL qs + 1) + rankInit (some i) := by
  simp [rankInit, tempAsInit_canSplit, h]

theorem forTuple_self_none (i : Initialization)
    (qs : List AbstractionPattern)
    (h : ¬i.canSplitIntoTupleElements = true) :
    5 * (psizeL qs + 1) + rankInit none <
      5 * (psizeL qs + 1) + rankInit (some i) := by
  simp [rankInit, h]

theorem elts_to_build (p : AbstractionPattern) (ps : List AbstractionPattern) :
    5 * psize p + 3 < 5 * psizeL (p :: ps) + 4 := by
  simp only [psizeL]
  omega

theorem elts_tail (p : AbstractionPattern) (ps : List AbstractionPattern) :
    5 * psizeL ps + 4 < 5 * psizeL (p :: ps) + 4 := by
  have := psize_pos p
  simp only [psizeL]
  omega

/-- The slow path of build for one scalar result: allocate a temporary
when the descriptor is indirect, then produce a Scalar node
(ResultPlanBuilder::build, lines 283-300). -/
def buildScalar (SGF : SILGenFunction) (init : Option Initialization)
    (origType : AbstractionPattern) (result : SILResultInfo)
    (st : ResultPlanBuilderState) :
    Option (ResultPlan × ResultPlanBuilderState) :=
  if result.indirect then
    let resultTL := SGF.getTypeLowering result.type
    let temporary : TemporaryInitialization := ⟨st.nextTemp, resultTL.loweredType⟩
    some (.scalar (some temporary) origType init SGF.rep,
      { st with nextTemp := st.nextTemp + 1,
                indirectResultAddrs :=
                  st.indirectResultAddrs ++ [temporary.getAddress] })
  else
    some (.scalar none origType init SGF.rep, st)

mutual

/-- ResultPlanBuilder::build: destructure original tuples, else pop the
next result descriptor and build a scalar-style plan, preferring the
in-place fast path. -/
def build (SGF : SILGenFunction) (init : Option Initialization)
    (origType : AbstractionPattern) (substType : CanType)
    (st : ResultPlanBuilderState) :
    Option (ResultPlan × ResultPlanBuilderState) :=
  match origType with
  | .tuple origElts =>
      match substType with
      | .tuple substElts => buildForTuple SGF init origElts substElts st
      | .scalar _ => none
  | .atom n =>
      match st.allResults with
      | [] => none
      | result :: rest =>
        let st1 := { st with allResults := rest }
        match init with
        | some i =>
          match i.getAddressForInPlaceInitialization with
          | some initAddr =>
            if result.indirect &&
                !(SGF.hasAbstractionDifference SGF.rep initAddr.ty
                    result.silStorageType) then
              some (.inPlaceInitialization i,
                { st1 with indirectResultAddrs :=
                    st1.indirectResultAddrs ++ [initAddr] })
            else buildScalar SGF (some i) (.atom n) result st1
          | none => buildScalar SGF (some i) (.atom n) result st1
        | none => buildScalar SGF none (.atom n) result st1
termination_by 5 * psize origType + 3
decreasing_by
  exact build_measure_lt _ _

/-- ResultPlanBuilder::buildForTuple: no destination yields TupleRValue;
a splittable destination yields TupleInitialization; otherwise emit via a
whole-tuple temporary when address-only, else via an r-value. -/
def buildForTuple (SGF : SILGenFunction) (init : Option Initialization)
    (origElts : List AbstractionPattern) (substElts : List CanType)
    (st : ResultPlanBuilderState) :
    Option (ResultPlan × ResultPlanBuilderState) :=
  match init with
  | none =>
      match buildElts SGF (substElts.map fun _ => none) origElts substElts st with
      | none => none
      | some (plans, st') => some (.tupleRValue plans, st')
  | some tupleInit =>
    if hsplit : tupleInit.canSplitIntoTupleElements then
      match buildElts SGF (tupleInit.splitIntoTupleElements.map some)
          origElts substElts st with
      | none => none
      | some (plans, st') =>
          some (.tupleInitialization tupleInit
            tupleInit.splitIntoTupleElements plans, st')
    else
      let substTL := SGF.getTypeLowering (.tuple substElts)
      if substTL.addressOnly then
        let temporary : TemporaryInitialization :=
          ⟨st.nextTemp, substTL.loweredType⟩
        let st1 := { st with nextTemp := st.nextTemp + 1 }
        match buildForTuple SGF (some (tempAsInit temporary))
            origElts substElts st1 with
        | none => none
        | some (subplan, st') =>
            some (.initValueFromTemporary tupleInit subplan temporary, st')
      else
        match buildForTuple SGF none origElts substElts st with
        | none => none
        | some (subplan, st') =>
            some (.initValueFromRValue tupleInit subplan, st')
termination_by 5 * (psizeL origElts + 1) + rankInit init
decreasing_by
  · exact forTuple_to_elts _ _
  · exact forTuple_to_elts _ _
  · exact forTuple_self_temp _ _ _ hsplit
  · exact forTuple_self_none _ _ hsplit

/-- Element loop shared by TupleRValueResultPlan and
TupleInitializationResultPlan: build each substituted element against the
pairwise original element pattern and element destination. -/
def buildElts (SGF : SILGenFunction) (inits : List (Option Initialization))
    (origElts : List AbstractionPattern) (substElts : List CanType)
    (st : ResultPlanBuilderState) :
    Option (List ResultPlan × ResultPlanBuilderState) :=
  match substElts with
  | [] => some ([], st)
  | substEltType :: substRest =>
    match origElts with
    | [] => none
    | origEltType :: origRest =>
      match inits with
      | [] => none
      | eltInit :: initRest =>
        match build SGF eltInit origEltType substEltType st with
        | none => none
        | some (plan, st') =>
          match buildElts SGF initRest origRest substRest st' with
          | none => none
          | some (plans, st'') => some (plan :: plans, st'')
termination_by 5 * psizeL origElts + 4
decreasing_by
  · exact elts_to_build _ _
  · exact elts_tail _ _

end

/-- Store the claimed value into the destination when one exists
(ScalarResultPlan::finish, lines 106-115): copyOrInitValueInto then
finishInitialization and an empty/used r-value, else wrap the value. -/
def scalarStore (init : Option Initialization) (value : ManagedValue) :
    RValue × List TraceEvent :=
  match init with
  | some i => (.used, [.copyOrInitValueInto i.id, .finishInit i.id])
  | none => (.scalar value, [])

/-- ScalarResultPlan::finish after the value is claimed: reabstract on an
abstraction difference (bridging for C, emitOrigToSubstValue otherwise,
with an early return when the value was emitted into the context), then
store. -/
def scalarAfterClaim (SGF : SILGenFunction) (origType : AbstractionPattern)
    (init : Option Initialization) (rep : SILFunctionTypeRepresentation)
    (substType : CanType) (value : ManagedValue)
    (directResults : List ManagedValue) (tr : List TraceEvent) :
    Option (RValue × List ManagedValue × List TraceEvent) :=
  let substTL := SGF.getTypeLowering substType
  if SGF.hasAbstractionDifference rep value.ty substTL.loweredType then
    if SGF.silFunctionLanguageIsC rep then
      let value2 := SGF.emitBridgedToNativeValue rep value substType
      let (rv, tr2) := scalarStore init value2
      some (rv, directResults, tr ++ [.bridgedToNative] ++ tr2)
    else
      match init with
      | some i =>
          if SGF.emitOrigToSubstIntoContext value origType substType i then
            some (.used, directResults, tr ++ [.emittedIntoContext i.id])
          else
            let value2 := SGF.emitOrigToSubstValue value origType substType
            let (rv, tr2) := scalarStore (some i) value2
            some (rv, directResults, tr ++ [.origToSubst] ++ tr2)
      | none =>
          let value2 := SGF.emitOrigToSubstValue value origType substType
          let (rv, tr2) := scalarStore none value2
          some (rv, directResults, tr ++ [.origToSubst] ++ tr2)
  else
    let (rv, tr2) := scalarStore init value
    some (rv, directResults, tr ++ tr2)

mutual

/-- The finish operation of each plan node, threading the direct-results
cursor and recording an event trace.  A `none` result is an assertion
failure / precondition violation (an immediate abort in the source). -/
def finish (SGF : SILGenFunction) :
    ResultPlan → CanType → List ManagedValue →
    Option (RValue × List ManagedValue × List TraceEvent)
  | .inPlaceInitialization i, _, directResults =>
      some (.used, directResults, [.finishInit i.id])
  | .scalar temporary origType init rep, substType, directResults =>
      let substTL := SGF.getTypeLowering substType
      match temporary with
      | some t =>
          if substTL.addressOnly then
            scalarAfterClaim SGF origType init rep substType
              t.getManagedAddress directResults [.finishTemporary t.id]
          else
            scalarAfterClaim SGF origType init rep substType
              (SGF.emitLoad substType t.getManagedAddress) directResults
              [.finishTemporary t.id, .loadTaken]
      | none =>
          match directResults with
          | [] => none
          | v :: rest =>
              scalarAfterClaim SGF origType init rep substType v rest []
  | .initValueFromTemporary init subPlan _, substType, directResults =>
      match finish SGF subPlan substType directResults with
      | none => none
      | some (subResult, directRest, tr) =>
          if subResult.isUsed then
            some (.used, directRest,
              tr ++ [.copyOrInitValueInto init.id, .finishInit init.id])
          else none
  | .initValueFromRValue init subPlan, substType, directResults =>
      match finish SGF subPlan substType directResults with
      | none => none
      | some (subResult, directRest, tr) =>
          match subResult.getAsSingleValue SGF with
          | none => none
          | some _ =>
              some (.used, directRest,
                tr ++ [.copyOrInitValueInto init.id, .finishInit init.id])
  | .tupleRValue eltPlans, substType, directResults =>
      match substType with
      | .tuple eltTys =>
          match finishElts SGF false eltPlans eltTys directResults with
          | none => none
          | some (rvs, directRest, tr) => some (.tuple rvs, directRest, tr)
      | .scalar _ => none
  | .tupleInitialization tupleInit _ eltPlans, substType, directResults =>
      match substType with
      | .tuple eltTys =>
          match finishElts SGF true eltPlans eltTys directResults with
          | none => none
          | some (_, directRest, tr) =>
              some (.used, directRest, tr ++ [.finishInit tupleInit.id])
      | .scalar _ => none

/-- The element loop of the tuple finish methods: finish each element plan
in order against the matching substituted element type, checking the
used-marker when required (TupleInitializationResultPlan's assert). -/
def finishElts (SGF : SILGenFunction) (requireUsed : Bool) :
    List ResultPlan → List CanType → List ManagedValue →
    Option (List RValue × List ManagedValue × List TraceEvent)
  | [], [], directResults => some ([], directResults, [])
  | p :: ps, t :: ts, directResults =>
      match finish SGF p t directResults with
      | none => none
      | some (rv, direct1, tr1) =>
          if requireUsed && !rv.isUsed then none
          else
            match finishElts SGF requireUsed ps ts direct1 with
            | none => none
            | some (rvs, direct2, tr2) => some (rv :: rvs, direct2, tr1 ++ tr2)
  | [], _ :: _, _ => none
  | _ :: _, [], _ => none

end

mutual

/-- Number of non-tuple leaves obtained by flattening an abstraction
pattern's tuple structure. -/
def leafCount : AbstractionPattern → Nat
  | .atom _ => 1
  | .tuple elts => leafCountL elts

/-- Total leaf count of a pattern list. -/
def leafCountL : List AbstractionPattern → Nat
  | [] => 0
  | p :: ps => leafCount p + leafCountL ps

end

mutual

/-- The pipeline invariant that the substituted type mirrors the abstract
pattern's tuple nesting exactly. -/
def mirrors : AbstractionPattern → CanType → Bool
  | .atom _, .scalar _ => true
  | .tuple ps, .tuple ts => mirrorsL ps ts
  | .atom _, .tuple _ => false
  | .tuple _, .scalar _ => false

/-- Pairwise mirroring of pattern and type lists. -/
def mirrorsL : List AbstractionPattern → List CanType → Bool
  | [], [] => true
  | p :: ps, t :: ts => mirrors p t && mirrorsL ps ts
  | [], _ :: _ => false
  | _ :: _, [] => false

end

theorem initOK_head_lt (p : AbstractionPattern) (ps : List AbstractionPattern) :
    2 * psize p < 2 * psizeL (p :: ps) + 1 := by
  simp only [psizeL]
  omega

theorem initOK_tail_lt (p : AbstractionPattern) (ps : List AbstractionPattern) :
    2 * psizeL ps + 1 < 2 * psizeL (p :: ps) + 1 := by
  have := psize_pos p
  simp only [psizeL]
  omega

theorem initOK_split_lt (ps : List AbstractionPattern) :
    2 * psizeL ps + 1 < 2 * psize (AbstractionPattern.tuple ps) := by
  rw [psize_tuple]
  omega

mutual

/-- The destination contract: wherever the builder will split a
destination, it supplies enough element sub-destinations, recursively. -/
def initOK : Option Initialization → AbstractionPattern → CanType → Bool
  | none, _, _ => true
  | some _, .atom _, _ => true
  | some i, .tuple ps, .tuple ts =>
      if i.canSplitIntoTupleElements then
        initOKL i.splitIntoTupleElements ps ts
      else true
  | some _, .tuple _, .scalar _ => true
termination_by i p t => 2 * psize p
decreasing_by
  exact initOK_split_lt _

/-- Elementwise destination contract for a split destination. -/
def initOKL : List Initialization → List AbstractionPattern → List CanType → Bool
  | _, [], [] => true
  | i :: is, p :: ps, t :: ts => initOK (some i) p t && initOKL is ps ts
  | _, _, _ => false
termination_by is ps ts => 2 * psizeL ps + 1
decreasing_by
  · exact initOK_head_lt _ _
  · exact initOK_tail_lt _ _

end

/-- Number of direct descriptors in a descriptor list. -/
def countDirect (rs : List SILResultInfo) : Nat :=
  rs.countP (fun r => !r.indirect)

mutual

/-- The destination identities a plan finalizes, in finalize order. -/
def planDests : ResultPlan → List Nat
  | .inPlaceInitialization i => [i.id]
  | .scalar _ _ none _ => []
  | .scalar _ _ (some i) _ => [i.id]
  | .initValueFromTemporary i sub _ => planDests sub ++ [i.id]
  | .initValueFromRValue i sub => planDests sub ++ [i.id]
  | .tupleRValue ps => planDestsL ps
  | .tupleInitialization ti _ ps => planDestsL ps ++ [ti.id]

/-- Destination identities of a plan list, in order. -/
def planDestsL : List ResultPlan → List Nat
  | [] => []
  | p :: ps => planDests p ++ planDestsL ps

end

mutual

/-- Number of leaves of a plan that have no covering destination, whose
values must therefore appear in the returned r-value. -/
def planFreeLeaves : ResultPlan → Nat
  | .inPlaceInitialization _ => 0
  | .scalar _ _ none _ => 1
  | .scalar _ _ (some _) _ => 0
  | .initValueFromTemporary _ _ _ => 0
  | .initValueFromRValue _ _ => 0
  | .tupleRValue ps => planFreeLeavesL ps
  | .tupleInitialization _ _ _ => 0

/-- Total uncovered leaves of a plan list. -/
def planFreeLeavesL : List ResultPlan → Nat
  | [] => 0
  | p :: ps => planFreeLeaves p + planFreeLeavesL ps

end

/-- The destination identity an event finalizes, when it finalizes one
(either an explicit finishInitialization or an emission into the
destination context by the reabstraction service). -/
def finalizeId : TraceEvent → Option Nat
  | .finishInit i => some i
  | .emittedIntoContext i => some i
  | .copyOrInitValueInto _ => none
  | .finishTemporary _ => none
  | .loadTaken => none
  | .bridgedToNative => none
  | .origToSubst => none

/-- Per-leaf accounting record: the descriptor the leaf consumed, the
addresses it appended to the indirect-result address list, and the direct
values its finalize consumed. -/
structure LeafContrib where
  desc : SILResultInfo
  addrs : List SILValue
  claimed : List ManagedValue

/-- A configurable concrete environment used to evaluate the development
on closed inputs. -/
def testEnv (absdiff : Bool) (isC : Bool) (intoCtx : Bool) (addrOnly : Bool) :
    SILGenFunction where
  rep := 0
  getTypeLowering := fun ty => ⟨ty, addrOnly⟩
  hasAbstractionDifference := fun _ _ _ => absdiff
  silFunctionLanguageIsC := fun _ => isC
  emitBridgedToNativeValue := fun _ v _ => v
  emitOrigToSubstValue := fun v _ _ => v
  emitOrigToSubstIntoContext := fun _ _ _ _ => intoCtx
  emitLoad := fun _ v => v
  mkTupleValue := fun _ => ⟨100, .scalar 100⟩

/-- Chained in-order finalization of element plans: each element's finish
maps the cursor left by the previous one, and each must return a
used/empty r-value. -/
inductive FinishedInOrder (SGF : SILGenFunction) :
    List ResultPlan → List CanType → List ManagedValue → List ManagedValue →
    List (List TraceEvent) → Prop
  | nil (drs : List ManagedValue) : FinishedInOrder SGF [] [] drs drs []
  | cons (p : ResultPlan) (ps : List ResultPlan) (t : CanType)
      (ts : List CanType) (drs drs1 drs2 : List ManagedValue) (rv : RValue)
      (tr : List TraceEvent) (trs : List (List TraceEvent)) :
      finish SGF p t drs = some (rv, drs1, tr) →
      rv.isUsed = true →
      FinishedInOrder SGF ps ts drs1 drs2 trs →
      FinishedInOrder SGF (p :: ps) (t :: ts) drs drs2 (tr :: trs)

/-- Elementwise destination contract for the builder's element loop. -/
def initOKs : List (Option Initialization) → List AbstractionPattern →
    List CanType → Bool
  | _, [], [] => true
  | oi :: is, p :: ps, t :: ts => initOK oi p t && initOKs is ps ts
  | _, _, _ => false
termination_by is ps ts => 2 * psizeL ps + 1
decreasing_by
  exact initOK_tail_lt _ _


/-- Correspondence package between one build step and the finish of the
plan it produced: the consumed descriptors, the appended addresses, and
the direct values consumed during finish, decomposed leaf by leaf in
order. -/
def FinishSpec (SGF : SILGenFunction) (init : Option Initialization)
    (plan : ResultPlan) (t : CanType) (ds : List SILResultInfo)
    (addrs0 addrs1 : List SILValue) (drs : List ManagedValue) : Prop :=
  ∃ (rv : RValue) (drs' : List ManagedValue) (tr : List TraceEvent)
    (contribs : List LeafContrib),
    finish SGF plan t drs = some (rv, drs', tr) ∧
    contribs.map LeafContrib.desc = ds ∧
    addrs1 = addrs0 ++ (contribs.map LeafContrib.addrs).flatten ∧
    drs' = drs.drop (countDirect ds) ∧
    drs.take (countDirect ds) = (contribs.map LeafContrib.claimed).flatten ∧
    (∀ c ∈ contribs,
      (c.desc.indirect = true → c.claimed = [] ∧ c.addrs.length = 1) ∧
      (c.desc.indirect = false → c.addrs = [] ∧ c.claimed.length = 1)) ∧
    (∀ i, init = some i → rv = RValue.used) ∧
    (init = none → ∃ w, RValue.getAsSingleValue SGF rv = some w)

/-- Elementwise version of FinishSpec for the tuple element loops. -/
def FinishEltsSpec (SGF : SILGenFunction)
    (inits : List (Option Initialization)) (ru : Bool)
    (plans : List ResultPlan) (ts : List CanType) (ds : List SILResultInfo)
    (addrs0 addrs1 : List SILValue) (drs : List ManagedValue) : Prop :=
  ∃ (rvs : List RValue) (drs' : List ManagedValue) (tr : List TraceEvent)
    (contribs : List LeafContrib),
    finishElts SGF ru plans ts drs = some (rvs, drs', tr) ∧
    contribs.map LeafContrib.desc = ds ∧
    addrs1 = addrs0 ++ (contribs.map LeafContrib.addrs).flatten ∧
    drs' = drs.drop (countDirect ds) ∧
    drs.take (countDirect ds) = (contribs.map LeafContrib.claimed).flatten ∧
    (∀ c ∈ contribs,
      (c.desc.indirect = true → c.claimed = [] ∧ c.addrs.length = 1) ∧
      (c.desc.indirect = false → c.addrs = [] ∧ c.claimed.length = 1)) ∧
    ((∀ oi ∈ inits, oi = none) →
      ∀ rv ∈ rvs, ∃ w, RValue.getAsSingleValue SGF rv = some w) ∧
    ((∀ oi ∈ inits, oi ≠ none) → ∀ rv ∈ rvs, rv = RValue.used)

mutual

/-- The left-to-right flattening of a pattern's non-tuple leaves. -/
def pleaves : AbstractionPattern → List AbstractionPattern
  | .atom n => [.atom n]
  | .tuple elts => pleavesL elts

/-- Flattened leaves of a pattern list. -/
def pleavesL : List AbstractionPattern → List AbstractionPattern
  | [] => []
  | p :: ps => pleaves p ++ pleavesL ps

end

mutual

/-- The left-to-right flattening of a type's non-tuple leaves. -/
def tleaves : CanType → List CanType
  | .scalar n => [.scalar n]
  | .tuple elts => tleavesL elts

/-- Flattened leaves of a type list. -/
def tleavesL : List CanType → List CanType
  | [] => []
  | t :: ts => tleaves t ++ tleavesL ts

end

/-! Helper characterizations. -/

theorem scalarAfterClaim_spec (SGF : SILGenFunction) (o : AbstractionPattern)
    (init : Option Initialization) (rep : SILFunctionTypeRepresentation)
    (t : CanType) (v : ManagedValue) (drs : List ManagedValue)
    (tr : List TraceEvent) :
    ∃ rv tr2, scalarAfterClaim SGF o init rep t v drs tr = some (rv, drs, tr ++ tr2) ∧
      tr2.filterMap finalizeId =
        (match init with | some i => [i.id] | none => []) ∧
      (∀ i, init = some i → rv = .used) ∧
      (init = none → ∃ w, rv = .scalar w) := by
  cases init with
  | none =>
      by_cases h1 : SGF.hasAbstractionDifference rep v.ty (SGF.getTypeLowering t).loweredType
      · by_cases h2 : SGF.silFunctionLanguageIsC rep
        · refine ⟨.scalar (SGF.emitBridgedToNativeValue rep v t), [.bridgedToNative],
            ?_, ?_, ?_, ?_⟩
          · simp [scalarAfterClaim, h1, h2, scalarStore]
          · simp [finalizeId]
          · simp
          · exact fun _ => ⟨_, rfl⟩
        · refine ⟨.scalar (SGF.emitOrigToSubstValue v o t), [.origToSubst], ?_, ?_, ?_, ?_⟩
          · simp [scalarAfterClaim, h1, h2, scalarStore]
          · simp [finalizeId]
          · simp
          · exact fun _ => ⟨_, rfl⟩
      · refine ⟨.scalar v, [], ?_, ?_, ?_, ?_⟩
        · simp [scalarAfterClaim, h1, scalarStore]
        · simp [finalizeId]
        · simp
        · exact fun _ => ⟨_, rfl⟩
  | some i =>
      by_cases h1 : SGF.hasAbstractionDifference rep v.ty (SGF.getTypeLowering t).loweredType
      · by_cases h2 : SGF.silFunctionLanguageIsC rep
        · refine ⟨.used,
            [.bridgedToNative, .copyOrInitValueInto i.id, .finishInit i.id], ?_, ?_, ?_, ?_⟩
          · simp [scalarAfterClaim, h1, h2, scalarStore]
          · simp [finalizeId]
          · simp
          · simp
        · by_cases h3 : SGF.emitOrigToSubstIntoContext v o t i
          · refine ⟨.used, [.emittedIntoContext i.id], ?_, ?_, ?_, ?_⟩
            · simp [scalarAfterClaim, h1, h2, h3]
            · simp [finalizeId]
            · simp
            · simp
          · refine ⟨.used,
              [.origToSubst, .copyOrInitValueInto i.id, .finishInit i.id], ?_, ?_, ?_, ?_⟩
            · simp [scalarAfterClaim, h1, h2, h3, scalarStore]
            · simp [finalizeId]
            · simp
            · simp
      · refine ⟨.used, [.copyOrInitValueInto i.id, .finishInit i.id], ?_, ?_, ?_, ?_⟩
        · simp [scalarAfterClaim, h1, scalarStore]
        · simp [finalizeId]
        · simp
        · simp

/-! Claim theorems. -/

/-- C2: for a non-tuple abstract leaf with a destination yielding an
in-place address, an indirect popped descriptor, and no abstraction
difference between that address's type and the descriptor's storage type,
build appends exactly that address to the indirect-result address list,
allocates no temporary, and produces an InPlaceInit node whose finish
consumes no direct results, only finalizes the destination, and returns
the empty/used r-value. -/
theorem c2_in_place_fast_path
    (SGF : SILGenFunction) (i : Initialization) (a : SILValue) (n : Nat)
    (t : CanType) (r : SILResultInfo) (rest : List SILResultInfo)
    (st : ResultPlanBuilderState) (drs : List ManagedValue)
    (haddr : i.getAddressForInPlaceInitialization = some a)
    (hq : st.allResults = r :: rest)
    (hind : r.indirect = true)
    (habs : SGF.hasAbstractionDifference SGF.rep a.ty r.silStorageType = false) :
    build SGF (some i) (.atom n) t st =
      some (.inPlaceInitialization i,
        { st with allResults := rest,
                  indirectResultAddrs := st.indirectResultAddrs ++ [a] }) ∧
    finish SGF (.inPlaceInitialization i) t drs =
      some (.used, drs, [.finishInit i.id]) := by
  constructor
  · simp [build, hq, haddr, hind, habs]
  · simp [finish]

theorem c2_witness :
    build (testEnv false false false false)
      (some (.mk 7 (some ⟨3, .scalar 1⟩) false []))
      (.atom 0) (.scalar 1)
      ⟨[⟨true, .scalar 1, .scalar 1⟩], [], 0⟩ =
      some (.inPlaceInitialization (.mk 7 (some ⟨3, .scalar 1⟩) false []),
        { allResults := [], indirectResultAddrs := [⟨3, .scalar 1⟩],
          nextTemp := 0 }) ∧
    finish (testEnv false false false false)
      (.inPlaceInitialization (.mk 7 (some ⟨3, .scalar 1⟩) false []))
      (.scalar 1) [] =
      some (.used, [], [.finishInit 7]) :=
  c2_in_place_fast_path _ _ _ _ _ _ _ _ _ rfl rfl rfl rfl

/-- C4: for a non-tuple abstract leaf not taking the in-place fast path,
build delegates to the slow path, which for an indirect descriptor
allocates one temporary of the descriptor's lowered type and appends its
address, and for a direct descriptor allocates nothing and appends
nothing; in both cases the node is a Scalar node holding the optional
temporary, the abstract pattern, the destination, and the
calling-convention tag. -/
theorem c4_scalar_slow_path
    (SGF : SILGenFunction) (init : Option Initialization) (n : Nat)
    (t : CanType) (r : SILResultInfo) (rest : List SILResultInfo)
    (st : ResultPlanBuilderState)
    (hq : st.allResults = r :: rest)
    (hslow : ∀ i a, init = some i →
      i.getAddressForInPlaceInitialization = some a →
      (r.indirect &&
        !(SGF.hasAbstractionDifference SGF.rep a.ty r.silStorageType)) = false) :
    build SGF init (.atom n) t st =
      buildScalar SGF init (.atom n) r { st with allResults := rest } ∧
    (r.indirect = true →
      buildScalar SGF init (.atom n) r { st with allResults := rest } =
        some (.scalar
            (some ⟨st.nextTemp, (SGF.getTypeLowering r.type).loweredType⟩)
            (.atom n) init SGF.rep,
          { st with
              allResults := rest
              nextTemp := st.nextTemp + 1
              indirectResultAddrs := st.indirectResultAddrs ++
                [⟨st.nextTemp, (SGF.getTypeLowering r.type).loweredType⟩] })) ∧
    (r.indirect = false →
      buildScalar SGF init (.atom n) r { st with allResults := rest } =
        some (.scalar none (.atom n) init SGF.rep,
          { st with allResults := rest })) := by
  refine ⟨?_, ?_, ?_⟩
  · cases init with
    | none => simp [build, hq]
    | some i2 =>
        cases ha : i2.getAddressForInPlaceInitialization with
        | none => simp [build, hq, ha]
        | some a =>
            have hc := hslow i2 a rfl ha
            simp [build, hq, ha, hc]
  · intro hind
    simp [buildScalar, hind, TemporaryInitialization.getAddress]
  · intro hind
    simp [buildScalar, hind]

theorem c4_witness :
    (build (testEnv true false false false) (some (.mk 7 (some ⟨3, .scalar 1⟩) false []))
        (.atom 0) (.scalar 1) ⟨[⟨true, .scalar 1, .scalar 1⟩], [], 5⟩ =
      buildScalar (testEnv true false false false)
        (some (.mk 7 (some ⟨3, .scalar 1⟩) false [])) (.atom 0)
        ⟨true, .scalar 1, .scalar 1⟩
        { allResults := [], indirectResultAddrs := [], nextTemp := 5 }) ∧
    (true = true →
      buildScalar (testEnv true false false false)
        (some (.mk 7 (some ⟨3, .scalar 1⟩) false [])) (.atom 0)
        ⟨true, .scalar 1, .scalar 1⟩
        { allResults := [], indirectResultAddrs := [], nextTemp := 5 } =
        some (.scalar (some ⟨5, .scalar 1⟩) (.atom 0)
            (some (.mk 7 (some ⟨3, .scalar 1⟩) false [])) 0,
          { allResults := []
            nextTemp := 6
            indirectResultAddrs := [⟨5, .scalar 1⟩] })) ∧
    (true = false →
      buildScalar (testEnv true false false false)
        (some (.mk 7 (some ⟨3, .scalar 1⟩) false [])) (.atom 0)
        ⟨true, .scalar 1, .scalar 1⟩
        { allResults := [], indirectResultAddrs := [], nextTemp := 5 } =
        some (.scalar none (.atom 0)
            (some (.mk 7 (some ⟨3, .scalar 1⟩) false [])) 0,
          { allResults := [], indirectResultAddrs := [], nextTemp := 5 })) := by
  exact c4_scalar_slow_path _ _ _ _ _ _ _ rfl
    (by intro i a hi ha; cases hi; cases ha; rfl)

theorem buildScalar_spec (SGF : SILGenFunction) (init : Option Initialization)
    (o : AbstractionPattern) (r : SILResultInfo) (st : ResultPlanBuilderState) :
    ∃ tmp st', buildScalar SGF init o r st = some (.scalar tmp o init SGF.rep, st') ∧
      st'.allResults = st.allResults := by
  unfold buildScalar
  split
  · exact ⟨_, _, rfl, rfl⟩
  · exact ⟨_, _, rfl, rfl⟩

/-- C10: build at a non-tuple abstract pattern consumes exactly one
descriptor and produces a scalar-style node (InPlaceInit or Scalar) even
when the substituted type is a tuple: the recursion is driven solely by
the abstract pattern's shape. -/
theorem c10_atom_pattern_single_descriptor
    (SGF : SILGenFunction) (init : Option Initialization) (n : Nat)
    (t : CanType) (r : SILResultInfo) (rest : List SILResultInfo)
    (st : ResultPlanBuilderState)
    (hq : st.allResults = r :: rest) :
    ∃ plan st', build SGF init (.atom n) t st = some (plan, st') ∧
      st'.allResults = rest ∧
      ((∃ i, plan = .inPlaceInitialization i) ∨
        (∃ tmp, plan = .scalar tmp (.atom n) init SGF.rep)) := by
  cases init with
  | none =>
      obtain ⟨tmp, st', hbs, hst⟩ :=
        buildScalar_spec SGF none (.atom n) r { st with allResults := rest }
      exact ⟨_, st', by simp only [build, hq]; exact hbs, hst,
        Or.inr ⟨tmp, rfl⟩⟩
  | some i =>
      cases ha : i.getAddressForInPlaceInitialization with
      | none =>
          obtain ⟨tmp, st', hbs, hst⟩ :=
            buildScalar_spec SGF (some i) (.atom n) r { st with allResults := rest }
          exact ⟨_, st', by simp only [build, hq, ha]; exact hbs, hst,
            Or.inr ⟨tmp, rfl⟩⟩
      | some a =>
          by_cases hc : (r.indirect &&
              !(SGF.hasAbstractionDifference SGF.rep a.ty r.silStorageType)) = true
          · exact ⟨.inPlaceInitialization i,
              { st with
                  allResults := rest
                  indirectResultAddrs := st.indirectResultAddrs ++ [a] },
              by simp only [build, hq, ha, hc, if_true], rfl, Or.inl ⟨i, rfl⟩⟩
          · obtain ⟨tmp, st', hbs, hst⟩ :=
              buildScalar_spec SGF (some i) (.atom n) r { st with allResults := rest }
            exact ⟨_, st', by simp only [build, hq, ha, hc, if_false]; exact hbs, hst,
              Or.inr ⟨tmp, rfl⟩⟩

theorem c10_witness :
    ∃ plan st',
      build (testEnv false false false false) none (.atom 0)
        (.tuple [.scalar 1, .scalar 2])
        ⟨[⟨false, .tuple [.scalar 1, .scalar 2], .tuple [.scalar 1, .scalar 2]⟩],
          [], 0⟩ = some (plan, st') ∧
      st'.allResults = [] ∧
      ((∃ i, plan = .inPlaceInitialization i) ∨
        (∃ tmp, plan = .scalar tmp (.atom 0) none
          (testEnv false false false false).rep)) :=
  c10_atom_pattern_single_descriptor _ _ _ _ _ _ _ rfl

/-- C5: for a tuple-shaped abstract pattern built against a destination
that cannot split, build allocates a whole-tuple temporary, recursively
builds a tuple plan targeting it, and wraps it in InitFromTemporary when
the substituted tuple type is address-only; otherwise it recursively
builds a destination-less tuple plan and wraps it in InitFromRValue — the
decision predicate is exactly address-only-ness of the substituted tuple
type. -/
theorem c5_unsplittable_tuple_destination
    (SGF : SILGenFunction) (ti : Initialization)
    (origElts : List AbstractionPattern) (substElts : List CanType)
    (st st' : ResultPlanBuilderState) (plan : ResultPlan)
    (hsplit : ti.canSplitIntoTupleElements = false)
    (hb : build SGF (some ti) (.tuple origElts) (.tuple substElts) st =
      some (plan, st')) :
    ((SGF.getTypeLowering (.tuple substElts)).addressOnly = true →
      ∃ sub, plan = .initValueFromTemporary ti sub
          ⟨st.nextTemp, (SGF.getTypeLowering (.tuple substElts)).loweredType⟩ ∧
        buildForTuple SGF
          (some (tempAsInit
            ⟨st.nextTemp, (SGF.getTypeLowering (.tuple substElts)).loweredType⟩))
          origElts substElts { st with nextTemp := st.nextTemp + 1 } =
          some (sub, st')) ∧
    ((SGF.getTypeLowering (.tuple substElts)).addressOnly = false →
      ∃ sub, plan = .initValueFromRValue ti sub ∧
        buildForTuple SGF none origElts substElts st = some (sub, st')) := by
  have hb' : buildForTuple SGF (some ti) origElts substElts st =
      some (plan, st') := by
    simpa only [build] using hb
  constructor
  · intro h
    rw [buildForTuple.eq_def] at hb'
    simp only [hsplit, Bool.false_eq_true, dite_false, h, if_true] at hb'
    split at hb'
    · exact absurd hb' (by simp)
    · next sub st2 hrec =>
        simp only [Option.some.injEq, Prod.mk.injEq] at hb'
        exact ⟨sub, hb'.1.symm, by rw [hrec, hb'.2]⟩
  · intro h
    rw [buildForTuple.eq_def] at hb'
    simp only [hsplit, Bool.false_eq_true, dite_false, h, Bool.true_eq_false,
      if_false] at hb'
    split at hb'
    · exact absurd hb' (by simp)
    · next sub st2 hrec =>
        simp only [Option.some.injEq, Prod.mk.injEq] at hb'
        exact ⟨sub, hb'.1.symm, by rw [hrec, hb'.2]⟩

theorem c5_witness :
    (((testEnv false false false true).getTypeLowering
        (.tuple [.scalar 5])).addressOnly = true →
      ∃ sub,
        (ResultPlan.initValueFromTemporary (.mk 9 none false [])
          (.tupleInitialization (.mk 0 (some ⟨0, .tuple [.scalar 5]⟩) true
              [.mk 1 (some ⟨1, .scalar 5⟩) true []])
            [.mk 1 (some ⟨1, .scalar 5⟩) true []]
            [.inPlaceInitialization (.mk 1 (some ⟨1, .scalar 5⟩) true [])])
          ⟨0, .tuple [.scalar 5]⟩) = .initValueFromTemporary (.mk 9 none false []) sub
          ⟨(0 : Nat),
            ((testEnv false false false true).getTypeLowering
              (.tuple [.scalar 5])).loweredType⟩ ∧
        buildForTuple (testEnv false false false true)
          (some (tempAsInit ⟨(0 : Nat),
            ((testEnv false false false true).getTypeLowering
              (.tuple [.scalar 5])).loweredType⟩))
          [.atom 0] [.scalar 5]
          { allResults := [⟨true, .scalar 5, .scalar 5⟩], indirectResultAddrs := [],
            nextTemp := 0 + 1 } =
          some (sub,
            { allResults := [], indirectResultAddrs := [⟨1, .scalar 5⟩],
              nextTemp := 1 })) ∧
    (((testEnv false false false true).getTypeLowering
        (.tuple [.scalar 5])).addressOnly = false →
      ∃ sub,
        (ResultPlan.initValueFromTemporary (.mk 9 none false [])
          (.tupleInitialization (.mk 0 (some ⟨0, .tuple [.scalar 5]⟩) true
              [.mk 1 (some ⟨1, .scalar 5⟩) true []])
            [.mk 1 (some ⟨1, .scalar 5⟩) true []]
            [.inPlaceInitialization (.mk 1 (some ⟨1, .scalar 5⟩) true [])])
          ⟨0, .tuple [.scalar 5]⟩) = .initValueFromRValue (.mk 9 none false []) sub ∧
        buildForTuple (testEnv false false false true) none [.atom 0] [.scalar 5]
          ⟨[⟨true, .scalar 5, .scalar 5⟩], [], 0⟩ =
          some (sub,
            { allResults := [], indirectResultAddrs := [⟨1, .scalar 5⟩],
              nextTemp := 1 })) := by
  exact c5_unsplittable_tuple_destination (testEnv false false false true)
    (.mk 9 none false []) [.atom 0] [.scalar 5]
    ⟨[⟨true, .scalar 5, .scalar 5⟩], [], 0⟩
    { allResults := [], indirectResultAddrs := [⟨1, .scalar 5⟩], nextTemp := 1 }
    _ rfl
    (by simp [build, buildForTuple, buildElts, buildScalar, tempAsInit, bufferInit,
      bufferInits, testEnv, Initialization.canSplitIntoTupleElements,
      Initialization.splitIntoTupleElements,
      Initialization.getAddressForInPlaceInitialization])

/-- C3: in Scalar finalize, when the claimed value's representation
differs from the lowered substituted type, a foreign (C) calling
convention applies the bridged-to-native conversion, and otherwise the
orig-to-subst reabstraction transform runs with the destination as
context; if the transform reports emission into that context, finalize
returns the empty/used r-value immediately, performing no copy into the
destination.  The first three conjuncts show how the Scalar node claims
its value (direct cursor head, or the temporary, loading unless
address-only) before this logic runs. -/
theorem c3_scalar_reabstraction
    (SGF : SILGenFunction) (o : AbstractionPattern)
    (init : Option Initialization) (rep : SILFunctionTypeRepresentation)
    (substType : CanType) :
    (∀ v drs, finish SGF (.scalar none o init rep) substType (v :: drs) =
      scalarAfterClaim SGF o init rep substType v drs []) ∧
    (∀ tmp drs, (SGF.getTypeLowering substType).addressOnly = true →
      finish SGF (.scalar (some tmp) o init rep) substType drs =
        scalarAfterClaim SGF o init rep substType tmp.getManagedAddress drs
          [.finishTemporary tmp.id]) ∧
    (∀ tmp drs, (SGF.getTypeLowering substType).addressOnly = false →
      finish SGF (.scalar (some tmp) o init rep) substType drs =
        scalarAfterClaim SGF o init rep substType
          (SGF.emitLoad substType tmp.getManagedAddress) drs
          [.finishTemporary tmp.id, .loadTaken]) ∧
    (∀ v drs tr,
      SGF.hasAbstractionDifference rep v.ty
        (SGF.getTypeLowering substType).loweredType = true →
      SGF.silFunctionLanguageIsC rep = true →
      scalarAfterClaim SGF o init rep substType v drs tr =
        some ((scalarStore init (SGF.emitBridgedToNativeValue rep v substType)).1,
          drs, tr ++ [.bridgedToNative] ++
            (scalarStore init (SGF.emitBridgedToNativeValue rep v substType)).2)) ∧
    (∀ v drs tr i,
      SGF.hasAbstractionDifference rep v.ty
        (SGF.getTypeLowering substType).loweredType = true →
      SGF.silFunctionLanguageIsC rep = false →
      init = some i →
      SGF.emitOrigToSubstIntoContext v o substType i = true →
      scalarAfterClaim SGF o init rep substType v drs tr =
        some (.used, drs, tr ++ [.emittedIntoContext i.id])) ∧
    (∀ v drs tr i,
      SGF.hasAbstractionDifference rep v.ty
        (SGF.getTypeLowering substType).loweredType = true →
      SGF.silFunctionLanguageIsC rep = false →
      init = some i →
      SGF.emitOrigToSubstIntoContext v o substType i = false →
      scalarAfterClaim SGF o init rep substType v drs tr =
        some ((scalarStore init (SGF.emitOrigToSubstValue v o substType)).1,
          drs, tr ++ [.origToSubst] ++
            (scalarStore init (SGF.emitOrigToSubstValue v o substType)).2)) ∧
    (∀ v drs tr,
      SGF.hasAbstractionDifference rep v.ty
        (SGF.getTypeLowering substType).loweredType = true →
      SGF.silFunctionLanguageIsC rep = false →
      init = none →
      scalarAfterClaim SGF o init rep substType v drs tr =
        some ((scalarStore init (SGF.emitOrigToSubstValue v o substType)).1,
          drs, tr ++ [.origToSubst] ++
            (scalarStore init (SGF.emitOrigToSubstValue v o substType)).2)) := by
  refine ⟨?_, ?_, ?_, ?_, ?_, ?_, ?_⟩
  · intro v drs
    simp [finish]
  · intro tmp drs h
    simp [finish, h]
  · intro tmp drs h
    simp [finish, h]
  · intro v drs tr habs hc
    simp [scalarAfterClaim, habs, hc]
  · intro v drs tr i habs hc hinit hctx
    subst hinit
    simp [scalarAfterClaim, habs, hc, hctx]
  · intro v drs tr i habs hc hinit hctx
    subst hinit
    simp [scalarAfterClaim, habs, hc, hctx]
  · intro v drs tr habs hc hinit
    subst hinit
    simp [scalarAfterClaim, habs, hc]

theorem c3_witness :
    scalarAfterClaim (testEnv true false true false) (.atom 0)
      (some (.mk 4 none false [])) 0 (.scalar 3) ⟨8, .scalar 9⟩ [] [] =
      some (.used, [], [.emittedIntoContext 4]) := by
  exact (c3_scalar_reabstraction (testEnv true false true false) (.atom 0)
      (some (.mk 4 none false [])) 0 (.scalar 3)).2.2.2.2.1
    ⟨8, .scalar 9⟩ [] [] (.mk 4 none false []) rfl rfl rfl rfl

theorem finishElts_chain (SGF : SILGenFunction) (ps : List ResultPlan) :
    ∀ ts drs rvs drs' tr,
      finishElts SGF true ps ts drs = some (rvs, drs', tr) →
      ∃ trs, tr = trs.flatten ∧ FinishedInOrder SGF ps ts drs drs' trs := by
  induction ps with
  | nil =>
      intro ts drs rvs drs' tr h
      cases ts with
      | nil =>
          simp only [finishElts, Option.some.injEq, Prod.mk.injEq] at h
          obtain ⟨-, h2, h3⟩ := h
          subst h2; subst h3
          exact ⟨[], rfl, .nil drs⟩
      | cons t ts => simp [finishElts] at h
  | cons p ps ih =>
      intro ts drs rvs drs' tr h
      cases ts with
      | nil => simp [finishElts] at h
      | cons t ts =>
          simp only [finishElts] at h
          cases h1 : finish SGF p t drs with
          | none => rw [h1] at h; simp at h
          | some r1 =>
              rw [h1] at h
              obtain ⟨rv1, d1, tr1⟩ := r1
              by_cases hu : rv1.isUsed
              · simp only [hu, Bool.not_true, Bool.and_false,
                  Bool.false_eq_true, if_false] at h
                cases h2 : finishElts SGF true ps ts d1 with
                | none => rw [h2] at h; simp at h
                | some r2 =>
                    rw [h2] at h
                    obtain ⟨rvs2, d2, tr2⟩ := r2
                    simp only [Option.some.injEq, Prod.mk.injEq] at h
                    obtain ⟨-, hd, ht⟩ := h
                    obtain ⟨trs, htr, hchain⟩ := ih ts d1 rvs2 d2 tr2 h2
                    refine ⟨tr1 :: trs, ?_, ?_⟩
                    · simp [← ht, htr]
                    · rw [← hd]
                      exact .cons p ps t ts drs d1 d2 rv1 tr1 trs h1 hu hchain
              · simp only [Bool.not_eq_true] at hu
                simp [hu] at h

/-- C6: TupleInitialization finalize runs each element sub-plan in element
order threading the direct-results cursor, each sub-result must be a
used/empty r-value, the parent destination is finalized only after every
element (its event is the last of the trace), and the node returns the
empty/used r-value. -/
theorem c6_tuple_initialization_in_order
    (SGF : SILGenFunction) (ti : Initialization)
    (eltInits : List Initialization) (plans : List ResultPlan)
    (substType : CanType) (drs drs' : List ManagedValue) (rv : RValue)
    (tr : List TraceEvent)
    (h : finish SGF (.tupleInitialization ti eltInits plans) substType drs =
      some (rv, drs', tr)) :
    rv = .used ∧
    ∃ tys trs, substType = .tuple tys ∧
      tr = trs.flatten ++ [.finishInit ti.id] ∧
      FinishedInOrder SGF plans tys drs drs' trs := by
  cases substType with
  | scalar n => simp [finish] at h
  | tuple tys =>
      simp only [finish] at h
      cases hfe : finishElts SGF true plans tys drs with
      | none => rw [hfe] at h; simp at h
      | some r =>
          rw [hfe] at h
          obtain ⟨rvs, d2, tr2⟩ := r
          simp only [Option.some.injEq, Prod.mk.injEq] at h
          obtain ⟨hrv, hd, ht⟩ := h
          obtain ⟨trs, htr, hchain⟩ := finishElts_chain SGF plans tys drs rvs d2 tr2 hfe
          subst htr
          refine ⟨hrv.symm, tys, trs, rfl, ht.symm, ?_⟩
          rw [← hd]
          exact hchain

theorem c6_witness :
    (RValue.used = RValue.used ∧
      ∃ tys trs, CanType.tuple [.scalar 1, .scalar 2] = CanType.tuple tys ∧
        ([TraceEvent.finishInit 1, TraceEvent.copyOrInitValueInto 2,
          TraceEvent.finishInit 2, TraceEvent.finishInit 5] :
            List TraceEvent) = trs.flatten ++ [.finishInit 5] ∧
        FinishedInOrder (testEnv false false false false)
          [.inPlaceInitialization (.mk 1 (some ⟨1, .scalar 1⟩) true []),
           .scalar none (.atom 0) (some (.mk 2 none false [])) 0]
          tys [⟨7, .scalar 2⟩] [] trs) := by
  exact c6_tuple_initialization_in_order (testEnv false false false false)
    (.mk 5 none true [])
    [.mk 1 (some ⟨1, .scalar 1⟩) true [], .mk 2 none false []]
    [.inPlaceInitialization (.mk 1 (some ⟨1, .scalar 1⟩) true []),
     .scalar none (.atom 0) (some (.mk 2 none false [])) 0]
    (.tuple [.scalar 1, .scalar 2]) [⟨7, .scalar 2⟩] [] .used
    [.finishInit 1, .copyOrInitValueInto 2, .finishInit 2, .finishInit 5]
    (by simp [finish, finishElts, scalarAfterClaim, scalarStore, testEnv,
      RValue.isUsed, Initialization.id])

theorem resultPlanRec (motive : ResultPlan → Prop)
    (hinPlace : ∀ i, motive (.inPlaceInitialization i))
    (hscalar : ∀ tmp o init rep, motive (.scalar tmp o init rep))
    (htemp : ∀ i sub tmp, motive sub → motive (.initValueFromTemporary i sub tmp))
    (hrv : ∀ i sub, motive sub → motive (.initValueFromRValue i sub))
    (htup : ∀ ps, (∀ p ∈ ps, motive p) → motive (.tupleRValue ps))
    (htinit : ∀ ti eis ps, (∀ p ∈ ps, motive p) →
      motive (.tupleInitialization ti eis ps)) :
    ∀ plan, motive plan := fun plan =>
  match plan with
  | .inPlaceInitialization i => hinPlace i
  | .scalar tmp o init rep => hscalar tmp o init rep
  | .initValueFromTemporary i sub tmp =>
      htemp i sub tmp
        (resultPlanRec motive hinPlace hscalar htemp hrv htup htinit sub)
  | .initValueFromRValue i sub =>
      hrv i sub (resultPlanRec motive hinPlace hscalar htemp hrv htup htinit sub)
  | .tupleRValue ps =>
      htup ps (fun p hp =>
        resultPlanRec motive hinPlace hscalar htemp hrv htup htinit p)
  | .tupleInitialization ti eis ps =>
      htinit ti eis ps (fun p hp =>
        resultPlanRec motive hinPlace hscalar htemp hrv htup htinit p)
termination_by plan => sizeOf plan
decreasing_by
  all_goals simp_wf
  all_goals try omega
  all_goals have h9 := List.sizeOf_lt_of_mem hp
  all_goals omega

theorem scalar_finish_dests (SGF : SILGenFunction) (o : AbstractionPattern)
    (init : Option Initialization) (rep : SILFunctionTypeRepresentation)
    (t : CanType) (v : ManagedValue) (drs : List ManagedValue)
    (trIn : List TraceEvent) (rv : RValue) (drs' : List ManagedValue)
    (tr : List TraceEvent)
    (htrIn : trIn.filterMap finalizeId = [])
    (h : scalarAfterClaim SGF o init rep t v drs trIn = some (rv, drs', tr)) :
    tr.filterMap finalizeId = (match init with | some i => [i.id] | none => []) ∧
    rv.numValues = (match init with | some _ => 0 | none => 1) := by
  obtain ⟨rv0, tr2, heq, hf, hsome, hnone⟩ :=
    scalarAfterClaim_spec SGF o init rep t v drs trIn
  rw [heq] at h
  simp only [Option.some.injEq, Prod.mk.injEq] at h
  obtain ⟨h1, -, h3⟩ := h
  subst h1
  subst h3
  cases init with
  | none =>
      obtain ⟨w, hw⟩ := hnone rfl
      subst hw
      refine ⟨?_, by simp [RValue.numValues]⟩
      simpa [List.filterMap_append, htrIn] using hf
  | some i =>
      have := hsome i rfl
      subst this
      refine ⟨?_, by simp [RValue.numValues]⟩
      simpa [List.filterMap_append, htrIn] using hf

theorem finishElts_dests (SGF : SILGenFunction) (ps : List ResultPlan)
    (IH : ∀ p ∈ ps, ∀ t drs rv drs' tr,
      finish SGF p t drs = some (rv, drs', tr) →
      tr.filterMap finalizeId = planDests p ∧
      rv.numValues = planFreeLeaves p) :
    ∀ ru ts drs rvs drs' tr,
      finishElts SGF ru ps ts drs = some (rvs, drs', tr) →
      tr.filterMap finalizeId = planDestsL ps ∧
      RValue.numValuesL rvs = planFreeLeavesL ps := by
  induction ps with
  | nil =>
      intro ru ts drs rvs drs' tr h
      cases ts with
      | nil =>
          simp only [finishElts, Option.some.injEq, Prod.mk.injEq] at h
          obtain ⟨h1, -, h3⟩ := h
          subst h1; subst h3
          simp [planDestsL, planFreeLeavesL, RValue.numValuesL]
      | cons t ts => simp [finishElts] at h
  | cons p ps ih =>
      intro ru ts drs rvs drs' tr h
      cases ts with
      | nil => simp [finishElts] at h
      | cons t ts =>
          simp only [finishElts] at h
          cases h1 : finish SGF p t drs with
          | none => rw [h1] at h; simp at h
          | some r1 =>
              rw [h1] at h
              obtain ⟨rv1, d1, tr1⟩ := r1
              have hP := IH p (by simp) t drs rv1 d1 tr1 h1
              by_cases hu : rv1.isUsed
              · simp only [hu, Bool.not_true, Bool.and_false,
                  Bool.false_eq_true, if_false] at h
                cases h2 : finishElts SGF ru ps ts d1 with
                | none => rw [h2] at h; simp at h
                | some r2 =>
                    rw [h2] at h
                    obtain ⟨rvs2, d2, tr2⟩ := r2
                    simp only [Option.some.injEq, Prod.mk.injEq] at h
                    obtain ⟨hr, -, ht⟩ := h
                    subst hr; subst ht
                    have hQ := ih (fun q hq => IH q (by simp [hq]))
                      ru ts d1 rvs2 d2 tr2 h2
                    constructor
                    · simp [List.filterMap_append, hP.1, hQ.1, planDestsL]
                    · simp [RValue.numValuesL, hP.2, hQ.2, planFreeLeavesL]
              · simp only [Bool.not_eq_true] at hu
                cases ru with
                | true => simp [hu] at h
                | false =>
                    simp only [hu, Bool.false_and, Bool.false_eq_true,
                      if_false] at h
                    cases h2 : finishElts SGF false ps ts d1 with
                    | none => rw [h2] at h; simp at h
                    | some r2 =>
                        rw [h2] at h
                        obtain ⟨rvs2, d2, tr2⟩ := r2
                        simp only [Option.some.injEq, Prod.mk.injEq] at h
                        obtain ⟨hr, -, ht⟩ := h
                        subst hr; subst ht
                        have hQ := ih (fun q hq => IH q (by simp [hq]))
                          false ts d1 rvs2 d2 tr2 h2
                        constructor
                        · simp [List.filterMap_append, hP.1, hQ.1, planDestsL]
                        · simp [RValue.numValuesL, hP.2, hQ.2, planFreeLeavesL]

theorem finishPlanAccounting (SGF : SILGenFunction) :
    ∀ plan, ∀ t drs rv drs' tr,
      finish SGF plan t drs = some (rv, drs', tr) →
      tr.filterMap finalizeId = planDests plan ∧
      rv.numValues = planFreeLeaves plan := by
  refine resultPlanRec _ ?_ ?_ ?_ ?_ ?_ ?_
  · intro i t drs rv drs' tr h
    simp only [finish, Option.some.injEq, Prod.mk.injEq] at h
    obtain ⟨h1, -, h3⟩ := h
    subst h1; subst h3
    simp [finalizeId, planDests, planFreeLeaves, RValue.numValues]
  · intro tmp o init rep t drs rv drs' tr h
    cases tmp with
    | some t0 =>
        by_cases hao : (SGF.getTypeLowering t).addressOnly
        · simp only [finish, hao, if_true] at h
          have := scalar_finish_dests SGF o init rep t t0.getManagedAddress drs
            [.finishTemporary t0.id] rv drs' tr (by simp [finalizeId]) h
          cases init <;> simpa [planDests, planFreeLeaves] using this
        · simp only [finish, hao, Bool.false_eq_true, if_false] at h
          have := scalar_finish_dests SGF o init rep t
            (SGF.emitLoad t t0.getManagedAddress) drs
            [.finishTemporary t0.id, .loadTaken] rv drs' tr
            (by simp [finalizeId]) h
          cases init <;> simpa [planDests, planFreeLeaves] using this
    | none =>
        cases drs with
        | nil => simp [finish] at h
        | cons v rest =>
            simp only [finish] at h
            have := scalar_finish_dests SGF o init rep t v rest [] rv drs' tr
              (by simp) h
            cases init <;> simpa [planDests, planFreeLeaves] using this
  · intro i sub tmp IH t drs rv drs' tr h
    simp only [finish] at h
    cases h1 : finish SGF sub t drs with
    | none => rw [h1] at h; simp at h
    | some r1 =>
        rw [h1] at h
        obtain ⟨rvS, dS, trS⟩ := r1
        by_cases hu : rvS.isUsed = true
        · simp only [hu, if_true] at h
          simp only [Option.some.injEq, Prod.mk.injEq] at h
          obtain ⟨h1', -, h3⟩ := h
          subst h1'; subst h3
          have hP := IH t drs rvS dS trS h1
          constructor
          · simp [List.filterMap_append, hP.1, finalizeId, planDests]
          · simp [RValue.numValues, planFreeLeaves]
        · simp [hu] at h
  · intro i sub IH t drs rv drs' tr h
    simp only [finish] at h
    cases h1 : finish SGF sub t drs with
    | none => rw [h1] at h; simp at h
    | some r1 =>
        rw [h1] at h
        obtain ⟨rvS, dS, trS⟩ := r1
        cases h2 : rvS.getAsSingleValue SGF with
        | none => simp [RValue.getAsSingleValue] at h; simp [h2] at h
        | some w =>
            simp only [h2] at h
            simp only [Option.some.injEq, Prod.mk.injEq] at h
            obtain ⟨h1', -, h3⟩ := h
            subst h1'; subst h3
            have hP := IH t drs rvS dS trS h1
            constructor
            · simp [List.filterMap_append, hP.1, finalizeId, planDests]
            · simp [RValue.numValues, planFreeLeaves]
  · intro ps IH t drs rv drs' tr h
    cases t with
    | scalar n => simp [finish] at h
    | tuple tys =>
        simp only [finish] at h
        cases h1 : finishElts SGF false ps tys drs with
        | none => rw [h1] at h; simp at h
        | some r1 =>
            rw [h1] at h
            obtain ⟨rvs, d1, tr1⟩ := r1
            simp only [Option.some.injEq, Prod.mk.injEq] at h
            obtain ⟨h1', -, h3⟩ := h
            subst h1'; subst h3
            have hQ := finishElts_dests SGF ps IH false tys drs rvs d1 tr1 h1
            exact ⟨by simpa [planDests] using hQ.1,
              by simpa [RValue.numValues, planFreeLeaves] using hQ.2⟩
  · intro ti eis ps IH t drs rv drs' tr h
    cases t with
    | scalar n => simp [finish] at h
    | tuple tys =>
        simp only [finish] at h
        cases h1 : finishElts SGF true ps tys drs with
        | none => rw [h1] at h; simp at h
        | some r1 =>
            rw [h1] at h
            obtain ⟨rvs, d1, tr1⟩ := r1
            simp only [Option.some.injEq, Prod.mk.injEq] at h
            obtain ⟨h1', -, h3⟩ := h
            subst h1'; subst h3
            have hQ := finishElts_dests SGF ps IH true tys drs rvs d1 tr1 h1
            constructor
            · simp [List.filterMap_append, hQ.1, finalizeId, planDests]
            · simp [RValue.numValues, planFreeLeaves]

/-- C8: finalizing a plan finalizes exactly the destinations the plan
holds, in order — so when each destination occurs once in the plan, each
destination's finishInitialization (or finalize-by-context-emission) runs
exactly once — and the returned r-value carries exactly one value per leaf
that has no covering destination. -/
theorem c8_exactly_once_deposit (SGF : SILGenFunction) (plan : ResultPlan)
    (t : CanType) (drs : List ManagedValue) (rv : RValue)
    (drs' : List ManagedValue) (tr : List TraceEvent)
    (h : finish SGF plan t drs = some (rv, drs', tr)) :
    tr.filterMap finalizeId = planDests plan ∧
    rv.numValues = planFreeLeaves plan ∧
    ((planDests plan).Nodup →
      ∀ d ∈ planDests plan, (tr.filterMap finalizeId).count d = 1) := by
  obtain ⟨h1, h2⟩ := finishPlanAccounting SGF plan t drs rv drs' tr h
  refine ⟨h1, h2, ?_⟩
  intro hnd d hd
  rw [h1]
  exact List.count_eq_one_of_mem hnd hd

theorem c8_witness :
    ([TraceEvent.copyOrInitValueInto 3, TraceEvent.finishInit 3].filterMap
        finalizeId =
      planDests (.tupleRValue [.scalar none (.atom 0) none 0,
        .scalar none (.atom 1) (some (.mk 3 none false [])) 0]) ∧
    (RValue.tuple [.scalar ⟨1, .scalar 1⟩, .used]).numValues =
      planFreeLeaves (.tupleRValue [.scalar none (.atom 0) none 0,
        .scalar none (.atom 1) (some (.mk 3 none false [])) 0]) ∧
    ((planDests (.tupleRValue [.scalar none (.atom 0) none 0,
        .scalar none (.atom 1) (some (.mk 3 none false [])) 0])).Nodup →
      ∀ d ∈ planDests (.tupleRValue [.scalar none (.atom 0) none 0,
        .scalar none (.atom 1) (some (.mk 3 none false [])) 0]),
        (([TraceEvent.copyOrInitValueInto 3,
          TraceEvent.finishInit 3].filterMap finalizeId).count d = 1))) := by
  exact c8_exactly_once_deposit (testEnv false false false false)
    (.tupleRValue [.scalar none (.atom 0) none 0,
      .scalar none (.atom 1) (some (.mk 3 none false [])) 0])
    (.tuple [.scalar 1, .scalar 2])
    [⟨1, .scalar 1⟩, ⟨2, .scalar 2⟩]
    (.tuple [.scalar ⟨1, .scalar 1⟩, .used]) []
    [.copyOrInitValueInto 3, .finishInit 3]
    (by simp [finish, finishElts, scalarAfterClaim, scalarStore, testEnv,
      RValue.isUsed, Initialization.id])

/-! Branch-level unfolding lemmas for the builder. -/

theorem build_tuple_eq (SGF : SILGenFunction) (init : Option Initialization)
    (ps : List AbstractionPattern) (ts : List CanType)
    (st : ResultPlanBuilderState) :
    build SGF init (.tuple ps) (.tuple ts) st = buildForTuple SGF init ps ts st := by
  simp [build]

theorem build_tuple_scalar_eq (SGF : SILGenFunction)
    (init : Option Initialization) (ps : List AbstractionPattern) (n : Nat)
    (st : ResultPlanBuilderState) :
    build SGF init (.tuple ps) (.scalar n) st = none := by
  simp [build]

theorem build_atom_empty (SGF : SILGenFunction) (init : Option Initialization)
    (n : Nat) (t : CanType) (st : ResultPlanBuilderState)
    (hq : st.allResults = []) :
    build SGF init (.atom n) t st = none := by
  rw [build.eq_def]
  simp [hq]

theorem build_fast_eq (SGF : SILGenFunction) (i : Initialization) (a : SILValue)
    (n : Nat) (t : CanType) (r : SILResultInfo) (rest : List SILResultInfo)
    (st : ResultPlanBuilderState)
    (hq : st.allResults = r :: rest)
    (haddr : i.getAddressForInPlaceInitialization = some a)
    (hcond : (r.indirect &&
      !(SGF.hasAbstractionDifference SGF.rep a.ty r.silStorageType)) = true) :
    build SGF (some i) (.atom n) t st =
      some (.inPlaceInitialization i,
        { st with allResults := rest,
                  indirectResultAddrs := st.indirectResultAddrs ++ [a] }) := by
  simp [build, hq, haddr, hcond]

theorem build_slow_none_eq (SGF : SILGenFunction) (n : Nat) (t : CanType)
    (r : SILResultInfo) (rest : List SILResultInfo)
    (st : ResultPlanBuilderState) (hq : st.allResults = r :: rest) :
    build SGF none (.atom n) t st =
      buildScalar SGF none (.atom n) r { st with allResults := rest } := by
  simp [build, hq]

theorem build_slow_noaddr_eq (SGF : SILGenFunction) (i : Initialization)
    (n : Nat) (t : CanType) (r : SILResultInfo) (rest : List SILResultInfo)
    (st : ResultPlanBuilderState) (hq : st.allResults = r :: rest)
    (haddr : i.getAddressForInPlaceInitialization = none) :
    build SGF (some i) (.atom n) t st =
      buildScalar SGF (some i) (.atom n) r { st with allResults := rest } := by
  simp [build, hq, haddr]

theorem build_slow_cond_eq (SGF : SILGenFunction) (i : Initialization)
    (a : SILValue) (n : Nat) (t : CanType) (r : SILResultInfo)
    (rest : List SILResultInfo) (st : ResultPlanBuilderState)
    (hq : st.allResults = r :: rest)
    (haddr : i.getAddressForInPlaceInitialization = some a)
    (hcond : ¬(r.indirect &&
      !(SGF.hasAbstractionDifference SGF.rep a.ty r.silStorageType)) = true) :
    build SGF (some i) (.atom n) t st =
      buildScalar SGF (some i) (.atom n) r { st with allResults := rest } := by
  simp [build, hq, haddr, hcond]

theorem buildScalar_state (SGF : SILGenFunction) (init : Option Initialization)
    (o : AbstractionPattern) (r : SILResultInfo) (st : ResultPlanBuilderState)
    (plan : ResultPlan) (st' : ResultPlanBuilderState)
    (h : buildScalar SGF init o r st = some (plan, st')) :
    st'.allResults = st.allResults ∧
    ∃ A, st'.indirectResultAddrs = st.indirectResultAddrs ++ A := by
  unfold buildScalar at h
  split at h
  · simp only [Option.some.injEq, Prod.mk.injEq] at h
    obtain ⟨-, h2⟩ := h
    subst h2
    exact ⟨rfl, [_], rfl⟩
  · simp only [Option.some.injEq, Prod.mk.injEq] at h
    obtain ⟨-, h2⟩ := h
    subst h2
    exact ⟨rfl, [], by simp⟩

theorem buildForTuple_none_eq (SGF : SILGenFunction)
    (ps : List AbstractionPattern) (ts : List CanType)
    (st : ResultPlanBuilderState) :
    buildForTuple SGF none ps ts st =
      (match buildElts SGF (ts.map fun _ => none) ps ts st with
        | none => none
        | some (plans, st') => some (.tupleRValue plans, st')) := by
  rw [buildForTuple.eq_def]

theorem buildForTuple_split_eq (SGF : SILGenFunction) (i : Initialization)
    (ps : List AbstractionPattern) (ts : List CanType)
    (st : ResultPlanBuilderState)
    (hsplit : i.canSplitIntoTupleElements = true) :
    buildForTuple SGF (some i) ps ts st =
      (match buildElts SGF (i.splitIntoTupleElements.map some) ps ts st with
        | none => none
        | some (plans, st') =>
            some (.tupleInitialization i i.splitIntoTupleElements plans, st')) := by
  rw [buildForTuple.eq_def]
  simp [hsplit]

theorem buildForTuple_nosplit_ao_eq (SGF : SILGenFunction) (i : Initialization)
    (ps : List AbstractionPattern) (ts : List CanType)
    (st : ResultPlanBuilderState)
    (hsplit : i.canSplitIntoTupleElements = false)
    (hao : (SGF.getTypeLowering (.tuple ts)).addressOnly = true) :
    buildForTuple SGF (some i) ps ts st =
      (match buildForTuple SGF
          (some (tempAsInit ⟨st.nextTemp,
            (SGF.getTypeLowering (.tuple ts)).loweredType⟩))
          ps ts { st with nextTemp := st.nextTemp + 1 } with
        | none => none
        | some (subplan, st') =>
            some (.initValueFromTemporary i subplan
              ⟨st.nextTemp, (SGF.getTypeLowering (.tuple ts)).loweredType⟩,
              st')) := by
  rw [buildForTuple.eq_def]
  simp [hsplit, hao]

theorem buildForTuple_nosplit_nao_eq (SGF : SILGenFunction) (i : Initialization)
    (ps : List AbstractionPattern) (ts : List CanType)
    (st : ResultPlanBuilderState)
    (hsplit : i.canSplitIntoTupleElements = false)
    (hao : (SGF.getTypeLowering (.tuple ts)).addressOnly = false) :
    buildForTuple SGF (some i) ps ts st =
      (match buildForTuple SGF none ps ts st with
        | none => none
        | some (subplan, st') => some (.initValueFromRValue i subplan, st')) := by
  rw [buildForTuple.eq_def]
  simp [hsplit, hao]

theorem buildElts_nil_eq (SGF : SILGenFunction)
    (inits : List (Option Initialization)) (ps : List AbstractionPattern)
    (st : ResultPlanBuilderState) :
    buildElts SGF inits ps [] st = some ([], st) := by
  rw [buildElts.eq_def]

theorem buildElts_noorig_eq (SGF : SILGenFunction)
    (inits : List (Option Initialization)) (t : CanType) (ts : List CanType)
    (st : ResultPlanBuilderState) :
    buildElts SGF inits [] (t :: ts) st = none := by
  rw [buildElts.eq_def]

theorem buildElts_noinit_eq (SGF : SILGenFunction) (p : AbstractionPattern)
    (ps : List AbstractionPattern) (t : CanType) (ts : List CanType)
    (st : ResultPlanBuilderState) :
    buildElts SGF [] (p :: ps) (t :: ts) st = none := by
  rw [buildElts.eq_def]

theorem buildElts_cons_eq (SGF : SILGenFunction) (oi : Option Initialization)
    (irest : List (Option Initialization)) (p : AbstractionPattern)
    (ps : List AbstractionPattern) (t : CanType) (ts : List CanType)
    (st : ResultPlanBuilderState) :
    buildElts SGF (oi :: irest) (p :: ps) (t :: ts) st =
      (match build SGF oi p t st with
        | none => none
        | some (plan, st') =>
            match buildElts SGF irest ps ts st' with
            | none => none
            | some (plans, st'') => some (plan :: plans, st'')) := by
  rw [buildElts.eq_def]

theorem build_consumes (SGF : SILGenFunction) :
    ∀ (init : Option Initialization) (p : AbstractionPattern) (t : CanType)
      (st : ResultPlanBuilderState) (plan : ResultPlan)
      (st' : ResultPlanBuilderState),
      build SGF init p t st = some (plan, st') → mirrors p t = true →
      st'.allResults = st.allResults.drop (leafCount p) ∧
      leafCount p ≤ st.allResults.length ∧
      ∃ A, st'.indirectResultAddrs = st.indirectResultAddrs ++ A := by
  intro init p t st
  refine build.induct SGF
    (fun init p t st => ∀ plan st',
      build SGF init p t st = some (plan, st') → mirrors p t = true →
      st'.allResults = st.allResults.drop (leafCount p) ∧
      leafCount p ≤ st.allResults.length ∧
      ∃ A, st'.indirectResultAddrs = st.indirectResultAddrs ++ A)
    (fun init ps ts st => ∀ plan st',
      buildForTuple SGF init ps ts st = some (plan, st') → mirrorsL ps ts = true →
      st'.allResults = st.allResults.drop (leafCountL ps) ∧
      leafCountL ps ≤ st.allResults.length ∧
      ∃ A, st'.indirectResultAddrs = st.indirectResultAddrs ++ A)
    (fun inits ps ts st => ∀ plans st',
      buildElts SGF inits ps ts st = some (plans, st') → mirrorsL ps ts = true →
      st'.allResults = st.allResults.drop (leafCountL ps) ∧
      leafCountL ps ≤ st.allResults.length ∧
      ∃ A, st'.indirectResultAddrs = st.indirectResultAddrs ++ A)
    ?_ ?_ ?_ ?_ ?_ ?_ ?_ ?_ ?_ ?_ ?_ ?_ ?_ ?_ ?_ ?_ ?_ ?_ ?_ ?_ ?_
    init p t st
  · intro init st ps ts ih plan st' hb hm
    rw [build_tuple_eq] at hb
    simp only [mirrors] at hm
    simp only [leafCount]
    exact ih plan st' hb hm
  · intro init st ps n plan st' hb hm
    simp [mirrors] at hm
  · intro init t st n hq plan st' hb hm
    rw [build_atom_empty SGF init n t st hq] at hb
    exact absurd hb (by simp)
  · intro t st n r rest hq i a haddr hcond plan st' hb hm
    rw [build_fast_eq SGF i a n t r rest st hq haddr hcond] at hb
    simp only [Option.some.injEq, Prod.mk.injEq] at hb
    obtain ⟨-, hst⟩ := hb
    subst hst
    refine ⟨by simp [leafCount, hq], by simp [leafCount, hq], [a], rfl⟩
  · intro t st n r rest hq i a haddr hcond plan st' hb hm
    rw [build_slow_cond_eq SGF i a n t r rest st hq haddr hcond] at hb
    obtain ⟨hall, A, hA⟩ := buildScalar_state SGF (some i) (.atom n) r _ plan st' hb
    exact ⟨by rw [hall]; simp [leafCount, hq], by simp [leafCount, hq],
      A, by simpa using hA⟩
  · intro t st n r rest hq i haddr plan st' hb hm
    rw [build_slow_noaddr_eq SGF i n t r rest st hq haddr] at hb
    obtain ⟨hall, A, hA⟩ := buildScalar_state SGF (some i) (.atom n) r _ plan st' hb
    exact ⟨by rw [hall]; simp [leafCount, hq], by simp [leafCount, hq],
      A, by simpa using hA⟩
  · intro t st n r rest hq plan st' hb hm
    rw [build_slow_none_eq SGF n t r rest st hq] at hb
    obtain ⟨hall, A, hA⟩ := buildScalar_state SGF none (.atom n) r _ plan st' hb
    exact ⟨by rw [hall]; simp [leafCount, hq], by simp [leafCount, hq],
      A, by simpa using hA⟩
  · intro ps ts st hnone ih plan st' hb hm
    rw [buildForTuple_none_eq, hnone] at hb
    exact absurd hb (by simp)
  · intro ps ts st plans st'' hsome ih plan st' hb hm
    rw [buildForTuple_none_eq, hsome] at hb
    simp only [Option.some.injEq, Prod.mk.injEq] at hb
    obtain ⟨-, hst⟩ := hb
    subst hst
    exact ih _ _ hsome hm
  · intro ps ts st i hsplit hnone ih plan st' hb hm
    rw [buildForTuple_split_eq SGF i ps ts st hsplit, hnone] at hb
    exact absurd hb (by simp)
  · intro ps ts st i hsplit plans st'' hsome ih plan st' hb hm
    rw [buildForTuple_split_eq SGF i ps ts st hsplit, hsome] at hb
    simp only [Option.some.injEq, Prod.mk.injEq] at hb
    obtain ⟨-, hst⟩ := hb
    subst hst
    exact ih _ _ hsome hm
  · intro ps ts st i hnsplit substTL hao temporary st1 hrec ih plan st' hb hm
    rw [buildForTuple_nosplit_ao_eq SGF i ps ts st
      (Bool.not_eq_true _ ▸ (by simpa using hnsplit)) hao] at hb
    rw [show ({ st with nextTemp := st.nextTemp + 1 } : ResultPlanBuilderState)
      = st1 from rfl] at hb
    rw [hrec] at hb
    exact absurd hb (by simp)
  · intro ps ts st i hnsplit substTL hao temporary st1 subplan st2 hsome ih
      plan st' hb hm
    rw [buildForTuple_nosplit_ao_eq SGF i ps ts st
      (Bool.not_eq_true _ ▸ (by simpa using hnsplit)) hao] at hb
    rw [show ({ st with nextTemp := st.nextTemp + 1 } : ResultPlanBuilderState)
      = st1 from rfl] at hb
    rw [hsome] at hb
    simp only [Option.some.injEq, Prod.mk.injEq] at hb
    obtain ⟨-, hst⟩ := hb
    subst hst
    exact ih _ _ hsome hm
  · intro ps ts st i hnsplit substTL hao hrec ih plan st' hb hm
    rw [buildForTuple_nosplit_nao_eq SGF i ps ts st
      (Bool.not_eq_true _ ▸ (by simpa using hnsplit))
      (by simpa using hao), hrec] at hb
    exact absurd hb (by simp)
  · intro ps ts st i hnsplit substTL hao subplan st2 hsome ih plan st' hb hm
    rw [buildForTuple_nosplit_nao_eq SGF i ps ts st
      (Bool.not_eq_true _ ▸ (by simpa using hnsplit))
      (by simpa using hao), hsome] at hb
    simp only [Option.some.injEq, Prod.mk.injEq] at hb
    obtain ⟨-, hst⟩ := hb
    subst hst
    exact ih _ _ hsome hm
  · intro inits ps st plans st' hb hm
    rw [buildElts_nil_eq] at hb
    simp only [Option.some.injEq, Prod.mk.injEq] at hb
    obtain ⟨-, hst⟩ := hb
    subst hst
    cases ps with
    | nil => exact ⟨by simp [leafCountL], by simp [leafCountL], [], by simp⟩
    | cons p ps => simp [mirrorsL] at hm
  · intro inits st t ts plans st' hb hm
    simp [mirrorsL] at hm
  · intro st t ts p ps plans st' hb hm
    rw [buildElts_noinit_eq] at hb
    exact absurd hb (by simp)
  · intro st t ts p ps oi irest hbnone ih plans st' hb hm
    rw [buildElts_cons_eq, hbnone] at hb
    exact absurd hb (by simp)
  · intro st t ts p ps oi irest sp st2 hbsome hrestnone ih1 ih3 plans st' hb hm
    rw [buildElts_cons_eq, hbsome] at hb
    simp only [hrestnone] at hb
    exact absurd hb (by simp)
  · intro st t ts p ps oi irest sp st2 hbsome plans2 st3 hrestsome ih1 ih3
      plansOut st' hb hm
    rw [buildElts_cons_eq, hbsome] at hb
    simp only [hrestsome, Option.some.injEq, Prod.mk.injEq] at hb
    obtain ⟨-, hst⟩ := hb
    subst hst
    simp only [mirrorsL, Bool.and_eq_true] at hm
    obtain ⟨hm1, hm2⟩ := hm
    obtain ⟨e1, l1, A1, hA1⟩ := ih1 sp st2 hbsome hm1
    obtain ⟨e2, l2, A2, hA2⟩ := ih3 plans2 st3 hrestsome hm2
    have hlen := congrArg List.length e1
    simp only [List.length_drop] at hlen
    refine ⟨?_, ?_, A1 ++ A2, ?_⟩
    · rw [e2, e1, List.drop_drop]
      all_goals congr 1
      all_goals simp only [leafCountL]
      all_goals omega
    · simp only [leafCountL]
      omega
    · rw [hA2, hA1, List.append_assoc]

/-! Destination-contract support for the totality argument. -/

theorem patternRec (motive : AbstractionPattern → Prop)
    (hatom : ∀ n, motive (.atom n))
    (htuple : ∀ ps, (∀ p ∈ ps, motive p) → motive (.tuple ps)) :
    ∀ p, motive p := fun p =>
  match p with
  | .atom n => hatom n
  | .tuple ps => htuple ps (fun q hq => patternRec motive hatom htuple q)
termination_by p => sizeOf p
decreasing_by
  simp_wf
  have := List.sizeOf_lt_of_mem hq
  omega

theorem initOK_none_eq (p : AbstractionPattern) (t : CanType) :
    initOK none p t = true := by
  rw [initOK.eq_def]

theorem initOK_atom_eq (i : Initialization) (n : Nat) (t : CanType) :
    initOK (some i) (.atom n) t = true := by
  rw [initOK.eq_def]

theorem initOK_tuple_eq (i : Initialization) (ps : List AbstractionPattern)
    (ts : List CanType) :
    initOK (some i) (.tuple ps) (.tuple ts) =
      if i.canSplitIntoTupleElements then
        initOKL i.splitIntoTupleElements ps ts
      else true := by
  rw [initOK.eq_def]

theorem initOKL_nil_eq (is : List Initialization) :
    initOKL is [] [] = true := by
  rw [initOKL.eq_def]
  cases is <;> rfl

theorem initOKL_cons_eq (i : Initialization) (is : List Initialization)
    (p : AbstractionPattern) (ps : List AbstractionPattern) (t : CanType)
    (ts : List CanType) :
    initOKL (i :: is) (p :: ps) (t :: ts) =
      (initOK (some i) p t && initOKL is ps ts) := by
  rw [initOKL.eq_def]

theorem initOKs_nil_eq (is : List (Option Initialization)) :
    initOKs is [] [] = true := by
  rw [initOKs.eq_def]
  cases is <;> rfl

theorem initOKs_cons_eq (oi : Option Initialization)
    (is : List (Option Initialization)) (p : AbstractionPattern)
    (ps : List AbstractionPattern) (t : CanType) (ts : List CanType) :
    initOKs (oi :: is) (p :: ps) (t :: ts) =
      (initOK oi p t && initOKs is ps ts) := by
  rw [initOKs.eq_def]

theorem initOKs_none (ps : List AbstractionPattern) :
    ∀ ts, mirrorsL ps ts = true →
      initOKs (ts.map fun _ => none) ps ts = true := by
  induction ps with
  | nil =>
      intro ts hm
      cases ts with
      | nil => simp [initOKs_nil_eq]
      | cons t ts => simp [mirrorsL] at hm
  | cons p ps ih =>
      intro ts hm
      cases ts with
      | nil => simp [mirrorsL] at hm
      | cons t ts =>
          simp only [mirrorsL, Bool.and_eq_true] at hm
          simp only [List.map_cons, initOKs_cons_eq, initOK_none_eq,
            Bool.true_and]
          exact ih ts hm.2

theorem initOKs_of_initOKL (ps : List AbstractionPattern) :
    ∀ is ts, initOKL is ps ts = true → initOKs (is.map some) ps ts = true := by
  induction ps with
  | nil =>
      intro is ts h
      cases ts with
      | nil => simp [initOKs_nil_eq]
      | cons t ts =>
          rw [initOKL.eq_def] at h
          cases is <;> simp at h
  | cons p ps ih =>
      intro is ts h
      cases ts with
      | nil =>
          rw [initOKL.eq_def] at h
          cases is <;> simp at h
      | cons t ts =>
          cases is with
          | nil =>
              rw [initOKL.eq_def] at h
              simp at h
          | cons i is =>
              rw [initOKL_cons_eq, Bool.and_eq_true] at h
              simp only [List.map_cons, initOKs_cons_eq, h.1, Bool.true_and]
              exact ih is ts h.2

theorem bufferInit_canSplit (b : Nat) (ty : CanType) :
    ((bufferInit b ty).1).canSplitIntoTupleElements = true := by
  cases ty <;> rfl

theorem bufferInit_tuple_split (b : Nat) (tys : List CanType) :
    ((bufferInit b (.tuple tys)).1).splitIntoTupleElements =
      (bufferInits (b + 1) tys).1 := rfl

theorem bufferInits_cons (b : Nat) (ty : CanType) (tys : List CanType) :
    (bufferInits b (ty :: tys)).1 =
      (bufferInit b ty).1 :: (bufferInits (bufferInit b ty).2 tys).1 := rfl

theorem bufferInits_initOKL (ps : List AbstractionPattern)
    (IH : ∀ p ∈ ps, ∀ ty t b, mirrors p ty = true → mirrors p t = true →
      initOK (some (bufferInit b ty).1) p t = true) :
    ∀ tys ts b, mirrorsL ps tys = true → mirrorsL ps ts = true →
      initOKL (bufferInits b tys).1 ps ts = true := by
  induction ps with
  | nil =>
      intro tys ts b h1 h2
      cases tys with
      | nil =>
          cases ts with
          | nil => exact initOKL_nil_eq _
          | cons t ts => simp [mirrorsL] at h2
      | cons ty tys => simp [mirrorsL] at h1
  | cons p ps ih =>
      intro tys ts b h1 h2
      cases tys with
      | nil => simp [mirrorsL] at h1
      | cons ty tys =>
          cases ts with
          | nil => simp [mirrorsL] at h2
          | cons t ts =>
              simp only [mirrorsL, Bool.and_eq_true] at h1 h2
              rw [bufferInits_cons, initOKL_cons_eq, Bool.and_eq_true]
              refine ⟨IH p (by simp) ty t b h1.1 h2.1, ?_⟩
              exact ih (fun q hq => IH q (by simp [hq])) tys ts _ h1.2 h2.2

theorem bufferInit_initOK :
    ∀ p, ∀ ty t b, mirrors p ty = true → mirrors p t = true →
      initOK (some (bufferInit b ty).1) p t = true := by
  refine patternRec _ ?_ ?_
  · intro n ty t b hty ht
    exact initOK_atom_eq _ _ _
  · intro ps IH ty t b hty ht
    cases ty with
    | scalar m => simp [mirrors] at hty
    | tuple tys =>
        cases t with
        | scalar m => simp [mirrors] at ht
        | tuple ts =>
            simp only [mirrors] at hty ht
            rw [initOK_tuple_eq, if_pos (bufferInit_canSplit b (.tuple tys)),
              bufferInit_tuple_split]
            exact bufferInits_initOKL ps IH tys ts (b + 1) hty ht

theorem initOKs_noinit_eq (p : AbstractionPattern) (ps : List AbstractionPattern)
    (t : CanType) (ts : List CanType) :
    initOKs [] (p :: ps) (t :: ts) = false := by
  rw [initOKs.eq_def]

theorem build_total (SGF : SILGenFunction)
    (hlow : ∀ p t, mirrors p t = true →
      mirrors p ((SGF.getTypeLowering t).loweredType) = true) :
    ∀ (init : Option Initialization) (p : AbstractionPattern) (t : CanType)
      (st : ResultPlanBuilderState),
      mirrors p t = true → initOK init p t = true →
      leafCount p ≤ st.allResults.length →
      (build SGF init p t st).isSome = true := by
  intro init p t st
  refine build.induct SGF
    (fun init p t st => mirrors p t = true → initOK init p t = true →
      leafCount p ≤ st.allResults.length →
      (build SGF init p t st).isSome = true)
    (fun init ps ts st => mirrorsL ps ts = true →
      initOK init (.tuple ps) (.tuple ts) = true →
      leafCountL ps ≤ st.allResults.length →
      (buildForTuple SGF init ps ts st).isSome = true)
    (fun inits ps ts st => mirrorsL ps ts = true →
      initOKs inits ps ts = true →
      leafCountL ps ≤ st.allResults.length →
      (buildElts SGF inits ps ts st).isSome = true)
    ?_ ?_ ?_ ?_ ?_ ?_ ?_ ?_ ?_ ?_ ?_ ?_ ?_ ?_ ?_ ?_ ?_ ?_ ?_ ?_ ?_
    init p t st
  · intro init st ps ts ih hm hok hlen
    rw [build_tuple_eq]
    simp only [mirrors] at hm
    simp only [leafCount] at hlen
    exact ih hm hok hlen
  · intro init st ps n hm hok hlen
    simp [mirrors] at hm
  · intro init t st n hq hm hok hlen
    rw [hq] at hlen
    simp [leafCount] at hlen
  · intro t st n r rest hq i a haddr hcond hm hok hlen
    rw [build_fast_eq SGF i a n t r rest st hq haddr hcond]
    rfl
  · intro t st n r rest hq i a haddr hcond hm hok hlen
    rw [build_slow_cond_eq SGF i a n t r rest st hq haddr hcond]
    obtain ⟨tmp, st', h, -⟩ :=
      buildScalar_spec SGF (some i) (.atom n) r { st with allResults := rest }
    rw [h]
    rfl
  · intro t st n r rest hq i haddr hm hok hlen
    rw [build_slow_noaddr_eq SGF i n t r rest st hq haddr]
    obtain ⟨tmp, st', h, -⟩ :=
      buildScalar_spec SGF (some i) (.atom n) r { st with allResults := rest }
    rw [h]
    rfl
  · intro t st n r rest hq hm hok hlen
    rw [build_slow_none_eq SGF n t r rest st hq]
    obtain ⟨tmp, st', h, -⟩ :=
      buildScalar_spec SGF none (.atom n) r { st with allResults := rest }
    rw [h]
    rfl
  · intro ps ts st hnone ih hm hok hlen
    have := ih hm (initOKs_none ps ts hm) hlen
    rw [hnone] at this
    simp at this
  · intro ps ts st plans st'' hsome ih hm hok hlen
    rw [buildForTuple_none_eq, hsome]
    rfl
  · intro ps ts st i hsplit hnone ih hm hok hlen
    rw [initOK_tuple_eq, if_pos hsplit] at hok
    have := ih hm (initOKs_of_initOKL ps i.splitIntoTupleElements ts hok) hlen
    rw [hnone] at this
    simp at this
  · intro ps ts st i hsplit plans st'' hsome ih hm hok hlen
    rw [buildForTuple_split_eq SGF i ps ts st hsplit, hsome]
    rfl
  · intro ps ts st i hnsplit substTL hao temporary st1 hrec ih hm hok hlen
    have hmt : mirrors (.tuple ps) (.tuple ts) = true := by
      simpa [mirrors] using hm
    have hlowT := hlow (.tuple ps) (.tuple ts) hmt
    have hbuf := bufferInit_initOK (.tuple ps)
      ((SGF.getTypeLowering (.tuple ts)).loweredType) (.tuple ts)
      st.nextTemp hlowT hmt
    have := ih hm hbuf hlen
    rw [hrec] at this
    simp at this
  · intro ps ts st i hnsplit substTL hao temporary st1 subplan st2 hsome ih
      hm hok hlen
    rw [buildForTuple_nosplit_ao_eq SGF i ps ts st
      (Bool.not_eq_true _ ▸ (by simpa using hnsplit)) hao]
    rw [show ({ st with nextTemp := st.nextTemp + 1 } : ResultPlanBuilderState)
      = st1 from rfl, hsome]
    rfl
  · intro ps ts st i hnsplit substTL hao hrec ih hm hok hlen
    have := ih hm (initOK_none_eq _ _) hlen
    rw [hrec] at this
    simp at this
  · intro ps ts st i hnsplit substTL hao subplan st2 hsome ih hm hok hlen
    rw [buildForTuple_nosplit_nao_eq SGF i ps ts st
      (Bool.not_eq_true _ ▸ (by simpa using hnsplit)) (by simpa using hao),
      hsome]
    rfl
  · intro inits ps st hm hok hlen
    rw [buildElts_nil_eq]
    rfl
  · intro inits st t ts hm hok hlen
    simp [mirrorsL] at hm
  · intro st t ts p ps hm hok hlen
    rw [initOKs_noinit_eq] at hok
    simp at hok
  · intro st t ts p ps oi irest hbnone ih hm hok hlen
    simp only [mirrorsL, Bool.and_eq_true] at hm
    rw [initOKs_cons_eq, Bool.and_eq_true] at hok
    simp only [leafCountL] at hlen
    have := ih hm.1 hok.1 (by omega)
    rw [hbnone] at this
    simp at this
  · intro st t ts p ps oi irest sp st2 hbsome hrestnone ih1 ih3 hm hok hlen
    simp only [mirrorsL, Bool.and_eq_true] at hm
    rw [initOKs_cons_eq, Bool.and_eq_true] at hok
    simp only [leafCountL] at hlen
    obtain ⟨e1, l1, -⟩ := build_consumes SGF oi p t st sp st2 hbsome hm.1
    have hlen2 : leafCountL ps ≤ st2.allResults.length := by
      have := congrArg List.length e1
      simp only [List.length_drop] at this
      omega
    have := ih3 hm.2 hok.2 hlen2
    rw [hrestnone] at this
    simp at this
  · intro st t ts p ps oi irest sp st2 hbsome plans2 st3 hrestsome ih1 ih3
      hm hok hlen
    rw [buildElts_cons_eq, hbsome]
    simp [hrestsome]

/-! Finish-side support for the joint build/finish correspondence. -/

theorem finish_scalar_some_ao_eq (SGF : SILGenFunction) (o : AbstractionPattern)
    (init : Option Initialization) (rep : SILFunctionTypeRepresentation)
    (t : CanType) (tmp : TemporaryInitialization) (drs : List ManagedValue)
    (hao : (SGF.getTypeLowering t).addressOnly = true) :
    finish SGF (.scalar (some tmp) o init rep) t drs =
      scalarAfterClaim SGF o init rep t tmp.getManagedAddress drs
        [.finishTemporary tmp.id] := by
  simp [finish, hao]

theorem finish_scalar_some_load_eq (SGF : SILGenFunction)
    (o : AbstractionPattern) (init : Option Initialization)
    (rep : SILFunctionTypeRepresentation) (t : CanType)
    (tmp : TemporaryInitialization) (drs : List ManagedValue)
    (hao : (SGF.getTypeLowering t).addressOnly = false) :
    finish SGF (.scalar (some tmp) o init rep) t drs =
      scalarAfterClaim SGF o init rep t
        (SGF.emitLoad t tmp.getManagedAddress) drs
        [.finishTemporary tmp.id, .loadTaken] := by
  simp [finish, hao]

theorem finish_scalar_none_cons_eq (SGF : SILGenFunction)
    (o : AbstractionPattern) (init : Option Initialization)
    (rep : SILFunctionTypeRepresentation) (t : CanType) (v : ManagedValue)
    (drs : List ManagedValue) :
    finish SGF (.scalar none o init rep) t (v :: drs) =
      scalarAfterClaim SGF o init rep t v drs [] := by
  simp [finish]

theorem finish_tupleRValue_eq (SGF : SILGenFunction) (plans : List ResultPlan)
    (ts : List CanType) (drs : List ManagedValue) :
    finish SGF (.tupleRValue plans) (.tuple ts) drs =
      (match finishElts SGF false plans ts drs with
        | none => none
        | some (rvs, d, tr) => some (.tuple rvs, d, tr)) := by
  simp [finish]

theorem finish_tupleInit_eq (SGF : SILGenFunction) (ti : Initialization)
    (eis : List Initialization) (plans : List ResultPlan) (ts : List CanType)
    (drs : List ManagedValue) :
    finish SGF (.tupleInitialization ti eis plans) (.tuple ts) drs =
      (match finishElts SGF true plans ts drs with
        | none => none
        | some (_, d, tr) => some (.used, d, tr ++ [.finishInit ti.id])) := by
  simp [finish]

theorem finish_initFromTemp_eq (SGF : SILGenFunction) (i : Initialization)
    (sub : ResultPlan) (tmp : TemporaryInitialization) (t : CanType)
    (drs : List ManagedValue) :
    finish SGF (.initValueFromTemporary i sub tmp) t drs =
      (match finish SGF sub t drs with
        | none => none
        | some (subResult, d, tr) =>
            if subResult.isUsed then
              some (.used, d, tr ++ [.copyOrInitValueInto i.id, .finishInit i.id])
            else none) := by
  simp [finish]

theorem finish_initFromRV_eq (SGF : SILGenFunction) (i : Initialization)
    (sub : ResultPlan) (t : CanType) (drs : List ManagedValue) :
    finish SGF (.initValueFromRValue i sub) t drs =
      (match finish SGF sub t drs with
        | none => none
        | some (subResult, d, tr) =>
            match subResult.getAsSingleValue SGF with
            | none => none
            | some _ =>
                some (.used, d,
                  tr ++ [.copyOrInitValueInto i.id, .finishInit i.id])) := by
  simp [finish]

theorem finishElts_cons_full_eq (SGF : SILGenFunction) (ru : Bool)
    (p : ResultPlan) (ps : List ResultPlan) (t : CanType) (ts : List CanType)
    (drs : List ManagedValue) :
    finishElts SGF ru (p :: ps) (t :: ts) drs =
      (match finish SGF p t drs with
        | none => none
        | some (rv, d1, tr1) =>
            if ru && !rv.isUsed then none
            else
              match finishElts SGF ru ps ts d1 with
              | none => none
              | some (rvs, d2, tr2) => some (rv :: rvs, d2, tr1 ++ tr2)) := by
  simp [finishElts]

theorem finishElts_nil_full_eq (SGF : SILGenFunction) (ru : Bool)
    (drs : List ManagedValue) :
    finishElts SGF ru [] [] drs = some ([], drs, []) := by
  simp [finishElts]

theorem scalarAfterClaim_char (SGF : SILGenFunction) (o : AbstractionPattern)
    (init : Option Initialization) (rep : SILFunctionTypeRepresentation)
    (t : CanType) (v : ManagedValue) (drs : List ManagedValue)
    (trIn : List TraceEvent) :
    ∃ rv tr, scalarAfterClaim SGF o init rep t v drs trIn = some (rv, drs, tr) ∧
      (∀ i, init = some i → rv = RValue.used) ∧
      (init = none → ∃ w, RValue.getAsSingleValue SGF rv = some w) := by
  obtain ⟨rv, tr2, heq, -, hs, hn⟩ :=
    scalarAfterClaim_spec SGF o init rep t v drs trIn
  refine ⟨rv, trIn ++ tr2, heq, hs, ?_⟩
  intro h
  obtain ⟨w, hw⟩ := hn h
  subst hw
  exact ⟨w, rfl⟩

theorem finish_scalar_some_char (SGF : SILGenFunction) (o : AbstractionPattern)
    (init : Option Initialization) (rep : SILFunctionTypeRepresentation)
    (t : CanType) (tmp : TemporaryInitialization) (drs : List ManagedValue) :
    ∃ rv tr, finish SGF (.scalar (some tmp) o init rep) t drs =
        some (rv, drs, tr) ∧
      (∀ i, init = some i → rv = RValue.used) ∧
      (init = none → ∃ w, RValue.getAsSingleValue SGF rv = some w) := by
  by_cases hao : (SGF.getTypeLowering t).addressOnly
  · rw [finish_scalar_some_ao_eq SGF o init rep t tmp drs hao]
    exact scalarAfterClaim_char SGF o init rep t tmp.getManagedAddress drs _
  · rw [finish_scalar_some_load_eq SGF o init rep t tmp drs
      (Bool.not_eq_true _ ▸ (by simpa using hao))]
    exact scalarAfterClaim_char SGF o init rep t _ drs _

theorem buildScalar_cases (SGF : SILGenFunction) (init : Option Initialization)
    (o : AbstractionPattern) (r : SILResultInfo) (st : ResultPlanBuilderState)
    (plan : ResultPlan) (st' : ResultPlanBuilderState)
    (h : buildScalar SGF init o r st = some (plan, st')) :
    (r.indirect = true ∧
      plan = .scalar
        (some ⟨st.nextTemp, (SGF.getTypeLowering r.type).loweredType⟩)
        o init SGF.rep ∧
      st' = { st with
        nextTemp := st.nextTemp + 1
        indirectResultAddrs := st.indirectResultAddrs ++
          [⟨st.nextTemp, (SGF.getTypeLowering r.type).loweredType⟩] }) ∨
    (r.indirect = false ∧ plan = .scalar none o init SGF.rep ∧ st' = st) := by
  unfold buildScalar at h
  split at h
  · next hind =>
      simp only [Option.some.injEq, Prod.mk.injEq] at h
      exact Or.inl ⟨hind, h.1.symm, h.2.symm⟩
  · next hind =>
      simp only [Option.some.injEq, Prod.mk.injEq] at h
      exact Or.inr ⟨by simpa using hind, h.1.symm, h.2.symm⟩

theorem getAsSingleValues_total (SGF : SILGenFunction) (rvs : List RValue)
    (h : ∀ rv ∈ rvs, ∃ w, RValue.getAsSingleValue SGF rv = some w) :
    ∃ ws, RValue.getAsSingleValues SGF rvs = some ws := by
  induction rvs with
  | nil => exact ⟨[], rfl⟩
  | cons rv rvs ih =>
      obtain ⟨w, hw⟩ := h rv (by simp)
      obtain ⟨ws, hws⟩ := ih (fun q hq => h q (by simp [hq]))
      exact ⟨w :: ws, by simp [RValue.getAsSingleValues, hw, hws]⟩


theorem scalar_leaf_spec (SGF : SILGenFunction) (init : Option Initialization)
    (n : Nat) (t : CanType) (r : SILResultInfo) (st1 : ResultPlanBuilderState)
    (plan : ResultPlan) (st' : ResultPlanBuilderState)
    (hb : buildScalar SGF init (.atom n) r st1 = some (plan, st'))
    (drs : List ManagedValue)
    (hdl : countDirect [r] ≤ drs.length) :
    FinishSpec SGF init plan t [r] st1.indirectResultAddrs
      st'.indirectResultAddrs drs := by
  rcases buildScalar_cases SGF init (.atom n) r st1 plan st' hb with
    ⟨hind, hplan, hst⟩ | ⟨hind, hplan, hst⟩
  · subst hplan
    subst hst
    obtain ⟨rv, tr, hfin, hus, hgas⟩ := finish_scalar_some_char SGF (.atom n)
      init SGF.rep t ⟨st1.nextTemp, (SGF.getTypeLowering r.type).loweredType⟩ drs
    unfold FinishSpec
    refine ⟨rv, drs, tr,
      [⟨r, [⟨st1.nextTemp, (SGF.getTypeLowering r.type).loweredType⟩], []⟩],
      hfin, by simp, by simp, ?_, ?_, ?_, hus, hgas⟩
    · simp [countDirect, List.countP_cons, hind]
    · simp [countDirect, List.countP_cons, hind]
    · intro c hc
      simp only [List.mem_singleton] at hc
      subst hc
      exact ⟨fun _ => ⟨rfl, rfl⟩,
        fun h2 => by rw [hind] at h2; exact absurd h2 (by simp)⟩
  · subst hplan
    subst hst
    have hcd : countDirect [r] = 1 := by
      simp [countDirect, List.countP_cons, hind]
    rw [hcd] at hdl
    cases drs with
    | nil => simp at hdl
    | cons v rest =>
        obtain ⟨rv, tr, hfin0, hus, hgas⟩ :=
          scalarAfterClaim_char SGF (.atom n) init SGF.rep t v rest []
        unfold FinishSpec
        refine ⟨rv, rest, tr, [⟨r, [], [v]⟩], ?_, by simp, by simp, ?_, ?_, ?_,
          hus, hgas⟩
        · rw [finish_scalar_none_cons_eq]
          exact hfin0
        · simp [hcd]
        · simp [hcd]
        · intro c hc
          simp only [List.mem_singleton] at hc
          subst hc
          exact ⟨fun h2 => by rw [hind] at h2; exact absurd h2 (by simp),
            fun _ => ⟨rfl, rfl⟩⟩

theorem getAsSingleValue_tuple_eq (SGF : SILGenFunction) (rvs : List RValue) :
    RValue.getAsSingleValue SGF (.tuple rvs) =
      (match RValue.getAsSingleValues SGF rvs with
        | none => none
        | some vs => some (SGF.mkTupleValue vs)) := rfl

theorem build_finish_spec (SGF : SILGenFunction) :
    ∀ (init : Option Initialization) (p : AbstractionPattern) (t : CanType)
      (st : ResultPlanBuilderState) (plan : ResultPlan)
      (st' : ResultPlanBuilderState),
      build SGF init p t st = some (plan, st') → mirrors p t = true →
      ∀ drs : List ManagedValue,
        countDirect (st.allResults.take (leafCount p)) ≤ drs.length →
        FinishSpec SGF init plan t (st.allResults.take (leafCount p))
          st.indirectResultAddrs st'.indirectResultAddrs drs := by
  intro init p t st
  refine build.induct SGF
    (fun init p t st => ∀ plan st',
      build SGF init p t st = some (plan, st') →
      mirrors p t = true → ∀ drs,
      countDirect (st.allResults.take (leafCount p)) ≤ drs.length →
      FinishSpec SGF init plan t (st.allResults.take (leafCount p))
        st.indirectResultAddrs st'.indirectResultAddrs drs)
    (fun init ps ts st => ∀ plan st',
      buildForTuple SGF init ps ts st = some (plan, st') →
      mirrorsL ps ts = true → ∀ drs,
      countDirect (st.allResults.take (leafCountL ps)) ≤ drs.length →
      FinishSpec SGF init plan (.tuple ts)
        (st.allResults.take (leafCountL ps))
        st.indirectResultAddrs st'.indirectResultAddrs drs)
    (fun inits ps ts st => ∀ plans st',
      buildElts SGF inits ps ts st = some (plans, st') →
      mirrorsL ps ts = true → ∀ ru drs,
      (ru = true → ∀ oi ∈ inits, oi ≠ none) →
      countDirect (st.allResults.take (leafCountL ps)) ≤ drs.length →
      FinishEltsSpec SGF inits ru plans ts
        (st.allResults.take (leafCountL ps))
        st.indirectResultAddrs st'.indirectResultAddrs drs)
    ?_ ?_ ?_ ?_ ?_ ?_ ?_ ?_ ?_ ?_ ?_ ?_ ?_ ?_ ?_ ?_ ?_ ?_ ?_ ?_ ?_
    init p t st
  · intro init st ps ts ih plan st' hb hm drs hdl
    rw [build_tuple_eq] at hb
    simp only [mirrors] at hm
    simp only [leafCount] at hdl ⊢
    exact ih plan st' hb hm drs hdl
  · intro init st ps n plan st' hb hm drs hdl
    simp [mirrors] at hm
  · intro init t st n hq plan st' hb hm drs hdl
    rw [build_atom_empty SGF init n t st hq] at hb
    exact absurd hb (by simp)
  · intro t st n r rest hq i a haddr hcond plan st' hb hm drs hdl
    rw [build_fast_eq SGF i a n t r rest st hq haddr hcond] at hb
    simp only [Option.some.injEq, Prod.mk.injEq] at hb
    obtain ⟨hplan, hst⟩ := hb
    subst hplan
    subst hst
    have hind : r.indirect = true := by
      have h2 := hcond
      simp only [Bool.and_eq_true] at h2
      exact h2.1
    unfold FinishSpec
    refine ⟨.used, drs, [.finishInit i.id], [⟨r, [a], []⟩], by simp [finish],
      by simp [leafCount, hq], by simp, ?_, ?_, ?_, fun _ _ => rfl,
      fun h => Option.noConfusion h⟩
    · simp [leafCount, hq, countDirect, List.countP_cons, hind]
    · simp [leafCount, hq, countDirect, List.countP_cons, hind]
    · intro c hc
      simp only [List.mem_singleton] at hc
      subst hc
      exact ⟨fun _ => ⟨rfl, rfl⟩,
        fun h2 => by rw [hind] at h2; exact absurd h2 (by simp)⟩
  · intro t st n r rest hq i a haddr hcond plan st' hb hm drs hdl
    rw [build_slow_cond_eq SGF i a n t r rest st hq haddr hcond] at hb
    have hds : st.allResults.take (leafCount (.atom n)) = [r] := by
      simp [leafCount, hq]
    rw [hds] at hdl ⊢
    exact scalar_leaf_spec SGF (some i) n t r { st with allResults := rest }
      plan st' hb drs hdl
  · intro t st n r rest hq i haddr plan st' hb hm drs hdl
    rw [build_slow_noaddr_eq SGF i n t r rest st hq haddr] at hb
    have hds : st.allResults.take (leafCount (.atom n)) = [r] := by
      simp [leafCount, hq]
    rw [hds] at hdl ⊢
    exact scalar_leaf_spec SGF (some i) n t r { st with allResults := rest }
      plan st' hb drs hdl
  · intro t st n r rest hq plan st' hb hm drs hdl
    rw [build_slow_none_eq SGF n t r rest st hq] at hb
    have hds : st.allResults.take (leafCount (.atom n)) = [r] := by
      simp [leafCount, hq]
    rw [hds] at hdl ⊢
    exact scalar_leaf_spec SGF none n t r { st with allResults := rest }
      plan st' hb drs hdl
  · intro ps ts st hnone ih plan st' hb hm drs hdl
    rw [buildForTuple_none_eq, hnone] at hb
    exact absurd hb (by simp)
  · intro ps ts st plans st'' hsome ih plan st' hb hm drs hdl
    rw [buildForTuple_none_eq, hsome] at hb
    simp only [Option.some.injEq, Prod.mk.injEq] at hb
    obtain ⟨hplan, hst⟩ := hb
    subst hplan
    subst hst
    have hspec := ih plans st'' hsome hm false drs (by simp) hdl
    unfold FinishEltsSpec at hspec
    obtain ⟨rvs, drs', tr, contribs, hfe, hdesc, haddr, hdrop, htake, hcon,
      hga, hub⟩ := hspec
    unfold FinishSpec
    refine ⟨.tuple rvs, drs', tr, contribs, ?_, hdesc, haddr, hdrop, htake,
      hcon, fun j hj => Option.noConfusion hj, ?_⟩
    · rw [finish_tupleRValue_eq, hfe]
    · intro h2
      have hall : ∀ oi ∈ (List.map (fun _ => (none : Option Initialization)) ts),
          oi = none := by simp
      obtain ⟨ws, hws⟩ := getAsSingleValues_total SGF rvs (hga hall)
      exact ⟨SGF.mkTupleValue ws, by rw [getAsSingleValue_tuple_eq, hws]⟩
  · intro ps ts st i hsplit hnone ih plan st' hb hm drs hdl
    rw [buildForTuple_split_eq SGF i ps ts st hsplit, hnone] at hb
    exact absurd hb (by simp)
  · intro ps ts st i hsplit plans st'' hsome ih plan st' hb hm drs hdl
    rw [buildForTuple_split_eq SGF i ps ts st hsplit, hsome] at hb
    simp only [Option.some.injEq, Prod.mk.injEq] at hb
    obtain ⟨hplan, hst⟩ := hb
    subst hplan
    subst hst
    have hspec := ih plans st'' hsome hm true drs (by simp) hdl
    unfold FinishEltsSpec at hspec
    obtain ⟨rvs, drs', tr, contribs, hfe, hdesc, haddr, hdrop, htake, hcon,
      hga, hub⟩ := hspec
    unfold FinishSpec
    refine ⟨.used, drs', tr ++ [.finishInit i.id], contribs, ?_, hdesc, haddr,
      hdrop, htake, hcon, fun _ _ => rfl, fun h => Option.noConfusion h⟩
    rw [finish_tupleInit_eq, hfe]
  · intro ps ts st i hnsplit substTL hao temporary st1 hrec ih plan st' hb
      hm drs hdl
    rw [buildForTuple_nosplit_ao_eq SGF i ps ts st
      (Bool.not_eq_true _ ▸ (by simpa using hnsplit)) hao] at hb
    rw [show ({ st with nextTemp := st.nextTemp + 1 } : ResultPlanBuilderState)
      = st1 from rfl, hrec] at hb
    exact absurd hb (by simp)
  · intro ps ts st i hnsplit substTL hao temporary st1 subplan st2 hsome ih
      plan st' hb hm drs hdl
    rw [buildForTuple_nosplit_ao_eq SGF i ps ts st
      (Bool.not_eq_true _ ▸ (by simpa using hnsplit)) hao] at hb
    rw [show ({ st with nextTemp := st.nextTemp + 1 } : ResultPlanBuilderState)
      = st1 from rfl, hsome] at hb
    simp only [Option.some.injEq, Prod.mk.injEq] at hb
    obtain ⟨hplan, hst⟩ := hb
    subst hplan
    subst hst
    have hspec := ih subplan st2 hsome hm drs hdl
    unfold FinishSpec at hspec
    obtain ⟨rvS, drs', trS, contribs, hfin, hdesc, haddr, hdrop, htake, hcon,
      hus, hgas⟩ := hspec
    have hused : rvS = .used := hus (tempAsInit temporary) rfl
    unfold FinishSpec
    refine ⟨.used, drs', trS ++ [.copyOrInitValueInto i.id, .finishInit i.id],
      contribs, ?_, hdesc, haddr, hdrop, htake, hcon, fun _ _ => rfl,
      fun h => Option.noConfusion h⟩
    rw [finish_initFromTemp_eq, hfin]
    simp [hused, RValue.isUsed]
  · intro ps ts st i hnsplit substTL hao hrec ih plan st' hb hm drs hdl
    rw [buildForTuple_nosplit_nao_eq SGF i ps ts st
      (Bool.not_eq_true _ ▸ (by simpa using hnsplit)) (by simpa using hao),
      hrec] at hb
    exact absurd hb (by simp)
  · intro ps ts st i hnsplit substTL hao subplan st2 hsome ih plan st' hb
      hm drs hdl
    rw [buildForTuple_nosplit_nao_eq SGF i ps ts st
      (Bool.not_eq_true _ ▸ (by simpa using hnsplit)) (by simpa using hao),
      hsome] at hb
    simp only [Option.some.injEq, Prod.mk.injEq] at hb
    obtain ⟨hplan, hst⟩ := hb
    subst hplan
    subst hst
    have hspec := ih subplan st2 hsome hm drs hdl
    unfold FinishSpec at hspec
    obtain ⟨rvS, drs', trS, contribs, hfin, hdesc, haddr, hdrop, htake, hcon,
      hus, hgas⟩ := hspec
    obtain ⟨w, hw⟩ := hgas rfl
    unfold FinishSpec
    refine ⟨.used, drs', trS ++ [.copyOrInitValueInto i.id, .finishInit i.id],
      contribs, ?_, hdesc, haddr, hdrop, htake, hcon, fun _ _ => rfl,
      fun h => Option.noConfusion h⟩
    rw [finish_initFromRV_eq, hfin]
    simp [hw]
  · intro inits ps st plans st' hb hm ru drs hreq hdl
    rw [buildElts_nil_eq] at hb
    simp only [Option.some.injEq, Prod.mk.injEq] at hb
    obtain ⟨hplans, hst⟩ := hb
    subst hplans
    subst hst
    cases ps with
    | cons p ps => simp [mirrorsL] at hm
    | nil =>
        unfold FinishEltsSpec
        refine ⟨[], drs, [], [], finishElts_nil_full_eq SGF ru drs,
          by simp [leafCountL], by simp, ?_, ?_, by simp, by simp, by simp⟩
        · simp [leafCountL, countDirect]
        · simp [leafCountL, countDirect]
  · intro inits st t ts plans st' hb hm ru drs hreq hdl
    simp [mirrorsL] at hm
  · intro st t ts p ps plans st' hb hm ru drs hreq hdl
    rw [buildElts_noinit_eq] at hb
    exact absurd hb (by simp)
  · intro st t ts p ps oi irest hbnone ih plans st' hb hm ru drs hreq hdl
    rw [buildElts_cons_eq, hbnone] at hb
    exact absurd hb (by simp)
  · intro st t ts p ps oi irest sp st2 hbsome hrestnone ih1 ih3 plans st'
      hb hm ru drs hreq hdl
    rw [buildElts_cons_eq, hbsome] at hb
    simp only [hrestnone] at hb
    exact absurd hb (by simp)
  · intro st t ts p ps oi irest sp st2 hbsome plans2 st3 hrestsome ih1 ih3
      plansOut st' hb hm ru drs hreq hdl
    rw [buildElts_cons_eq, hbsome] at hb
    simp only [hrestsome, Option.some.injEq, Prod.mk.injEq] at hb
    obtain ⟨hplans, hst⟩ := hb
    subst hplans
    subst hst
    simp only [mirrorsL, Bool.and_eq_true] at hm
    obtain ⟨hm1, hm2⟩ := hm
    obtain ⟨e1, l1, -⟩ := build_consumes SGF oi p t st sp st2 hbsome hm1
    have hsplitds : st.allResults.take (leafCountL (p :: ps)) =
        st.allResults.take (leafCount p) ++
          st2.allResults.take (leafCountL ps) := by
      rw [e1]
      simp only [leafCountL]
      exact List.take_add st.allResults (leafCount p) (leafCountL ps)
    have hcd : countDirect (st.allResults.take (leafCount p) ++
        st2.allResults.take (leafCountL ps)) =
        countDirect (st.allResults.take (leafCount p)) +
        countDirect (st2.allResults.take (leafCountL ps)) := by
      simp [countDirect, List.countP_append]
    rw [hsplitds] at hdl ⊢
    rw [hcd] at hdl
    have hd1 : countDirect (st.allResults.take (leafCount p)) ≤ drs.length := by
      omega
    have hspec1 := ih1 sp st2 hbsome hm1 drs hd1
    unfold FinishSpec at hspec1
    obtain ⟨rv1, drs1', tr1, c1, hfin1, hdesc1, haddr1, hdrop1, htake1, hcon1,
      hus1, hgas1⟩ := hspec1
    subst hdrop1
    have hd2 : countDirect (st2.allResults.take (leafCountL ps)) ≤
        (drs.drop (countDirect (st.allResults.take (leafCount p)))).length := by
      simp only [List.length_drop]
      omega
    have hreq2 : ru = true → ∀ oi' ∈ irest, oi' ≠ none :=
      fun h oi' hmem => hreq h oi' (by simp [hmem])
    have hspec2 := ih3 plans2 st3 hrestsome hm2 ru
      (drs.drop (countDirect (st.allResults.take (leafCount p)))) hreq2 hd2
    unfold FinishEltsSpec at hspec2
    obtain ⟨rvs2, drs2', tr2, c2, hfin2, hdesc2, haddr2, hdrop2, htake2, hcon2,
      hga2, hub2⟩ := hspec2
    subst hdrop2
    have hcheck : (ru && !rv1.isUsed) = false := by
      cases ru with
      | false => simp
      | true =>
          have hne : oi ≠ none := hreq rfl oi (by simp)
          match oi, hne with
          | some j, _ =>
              have := hus1 j rfl
              subst this
              simp [RValue.isUsed]
    unfold FinishEltsSpec
    refine ⟨rv1 :: rvs2,
      (drs.drop (countDirect (List.take (leafCount p) st.allResults))).drop
        (countDirect (List.take (leafCountL ps) st2.allResults)),
      tr1 ++ tr2, c1 ++ c2, ?_, ?_, ?_, ?_, ?_, ?_, ?_, ?_⟩
    · rw [finishElts_cons_full_eq, hfin1]
      simp only [hcheck, Bool.false_eq_true, if_false, hfin2]
    · simp [hdesc1, hdesc2]
    · rw [haddr2, haddr1]
      simp [List.map_append, List.flatten_append, List.append_assoc]
    · rw [hcd, List.drop_drop]
      all_goals congr 1
      all_goals omega
    · rw [hcd, List.take_add]
      simp [List.map_append, List.flatten_append, htake1, htake2]
    · intro c hc
      rcases List.mem_append.mp hc with h | h
      · exact hcon1 c h
      · exact hcon2 c h
    · intro hall rv hrv
      rcases List.mem_cons.mp hrv with h | h
      · subst h
        exact hgas1 (hall oi (by simp))
      · exact hga2 (fun oi' hmem => hall oi' (by simp [hmem])) rv h
    · intro hall rv hrv
      rcases List.mem_cons.mp hrv with h | h
      · subst h
        have hne : oi ≠ none := hall oi (by simp)
        match oi, hne with
        | some j, _ => exact hus1 j rfl
      · exact hub2 (fun oi' hmem => hall oi' (by simp [hmem])) rv h

theorem pleaves_length :
    ∀ p, (pleaves p).length = leafCount p := by
  refine patternRec _ ?_ ?_
  · intro n
    simp [pleaves, leafCount]
  · intro ps IH
    simp only [pleaves, leafCount]
    induction ps with
    | nil => simp [pleavesL, leafCountL]
    | cons p ps ih =>
        simp only [pleavesL, leafCountL, List.length_append]
        rw [IH p (by simp), ih (fun q hq => IH q (by simp [hq]))]

theorem mirrors_leaves :
    ∀ p t, mirrors p t = true →
      List.Forall₂
        (fun q s => q.isTuple = false ∧ s.isTuple = false ∧ mirrors q s = true)
        (pleaves p) (tleaves t) := by
  refine patternRec _ ?_ ?_
  · intro n t hm
    cases t with
    | scalar m =>
        simp only [pleaves, tleaves]
        exact List.Forall₂.cons
          ⟨rfl, rfl, hm⟩ List.Forall₂.nil
    | tuple ts => simp [mirrors] at hm
  · intro ps IH t hm
    cases t with
    | scalar m => simp [mirrors] at hm
    | tuple ts =>
        simp only [mirrors] at hm
        simp only [pleaves, tleaves]
        induction ps generalizing ts with
        | nil =>
            cases ts with
            | nil => exact List.Forall₂.nil
            | cons t ts => simp [mirrorsL] at hm
        | cons p ps ih =>
            cases ts with
            | nil => simp [mirrorsL] at hm
            | cons t ts =>
                simp only [mirrorsL, Bool.and_eq_true] at hm
                simp only [pleavesL, tleavesL]
                exact List.rel_append
                  (IH p (by simp) t hm.1)
                  (ih (fun q hq => IH q (by simp [hq])) ts hm.2)

/-- C1: under the mirrored-shape invariant, building consumes exactly the
pattern's leaf count of descriptors from the queue, and finalizing
consumes exactly one direct value per direct-marked consumed descriptor;
when the caller supplies exactly that many direct values, none is left
over. -/
theorem c1_descriptor_direct_balance
    (SGF : SILGenFunction) (init : Option Initialization)
    (p : AbstractionPattern) (t : CanType) (st : ResultPlanBuilderState)
    (plan : ResultPlan) (st' : ResultPlanBuilderState)
    (drs drs' : List ManagedValue) (rv : RValue) (tr : List TraceEvent)
    (hm : mirrors p t = true)
    (hb : build SGF init p t st = some (plan, st'))
    (hdl : countDirect (st.allResults.take (leafCount p)) ≤ drs.length)
    (hf : finish SGF plan t drs = some (rv, drs', tr)) :
    st'.allResults = st.allResults.drop (leafCount p) ∧
    leafCount p ≤ st.allResults.length ∧
    drs' = drs.drop (countDirect (st.allResults.take (leafCount p))) ∧
    (drs.length = countDirect (st.allResults.take (leafCount p)) →
      drs' = []) := by
  obtain ⟨e1, l1, -⟩ := build_consumes SGF init p t st plan st' hb hm
  have hs := build_finish_spec SGF init p t st plan st' hb hm drs hdl
  unfold FinishSpec at hs
  obtain ⟨rv0, drs0, tr0, contribs, hfin0, -, -, hdrop0, -, -, -, -⟩ := hs
  rw [hf] at hfin0
  simp only [Option.some.injEq, Prod.mk.injEq] at hfin0
  obtain ⟨-, hd, -⟩ := hfin0
  subst hd
  refine ⟨e1, l1, hdrop0, ?_⟩
  intro hlen
  rw [hdrop0, ← hlen, List.drop_length]

theorem c1_witness :
    ((⟨[], [⟨0, .scalar 1⟩], 1⟩ : ResultPlanBuilderState).allResults =
      (⟨[⟨true, .scalar 1, .scalar 1⟩, ⟨false, .scalar 2, .scalar 2⟩], [], 0⟩ :
        ResultPlanBuilderState).allResults.drop
          (leafCount (.tuple [.atom 0, .atom 1])) ∧
    leafCount (.tuple [.atom 0, .atom 1]) ≤
      (⟨[⟨true, .scalar 1, .scalar 1⟩, ⟨false, .scalar 2, .scalar 2⟩], [], 0⟩ :
        ResultPlanBuilderState).allResults.length ∧
    ([] : List ManagedValue) = [⟨7, .scalar 2⟩].drop
      (countDirect
        ((⟨[⟨true, .scalar 1, .scalar 1⟩, ⟨false, .scalar 2, .scalar 2⟩], [], 0⟩ :
          ResultPlanBuilderState).allResults.take
            (leafCount (.tuple [.atom 0, .atom 1])))) ∧
    (([⟨7, .scalar 2⟩] : List ManagedValue).length =
      countDirect
        ((⟨[⟨true, .scalar 1, .scalar 1⟩, ⟨false, .scalar 2, .scalar 2⟩], [], 0⟩ :
          ResultPlanBuilderState).allResults.take
            (leafCount (.tuple [.atom 0, .atom 1]))) →
      ([] : List ManagedValue) = [])) := by
  exact c1_descriptor_direct_balance (testEnv false false false false) none
    (.tuple [.atom 0, .atom 1]) (.tuple [.scalar 1, .scalar 2])
    ⟨[⟨true, .scalar 1, .scalar 1⟩, ⟨false, .scalar 2, .scalar 2⟩], [], 0⟩
    (.tupleRValue [.scalar (some ⟨0, .scalar 1⟩) (.atom 0) none 0,
      .scalar none (.atom 1) none 0])
    ⟨[], [⟨0, .scalar 1⟩], 1⟩
    [⟨7, .scalar 2⟩] [] (.tuple [.scalar ⟨0, .scalar 1⟩, .scalar ⟨7, .scalar 2⟩])
    [.finishTemporary 0, .loadTaken]
    rfl
    (by simp [build, buildForTuple, buildElts, buildScalar, testEnv,
      TemporaryInitialization.getAddress])
    (by simp [countDirect, leafCount, leafCountL, List.countP_cons])
    (by simp [finish, finishElts, scalarAfterClaim, scalarStore, testEnv,
      TemporaryInitialization.getManagedAddress, RValue.isUsed])

/-- C7: under the mirrored-shape invariant, the substituted type's
left-to-right leaf flattening aligns leaf-for-leaf with the abstract
pattern's, and both the addresses appended to the indirect-result address
list during building and the direct values consumed during finalize
decompose as the concatenation, in leaf order, of per-leaf contributions —
one descriptor per leaf, one address and no direct value for an indirect
leaf, no address and exactly one direct value for a direct leaf. -/
theorem c7_order_preservation
    (SGF : SILGenFunction) (init : Option Initialization)
    (p : AbstractionPattern) (t : CanType) (st : ResultPlanBuilderState)
    (plan : ResultPlan) (st' : ResultPlanBuilderState)
    (drs : List ManagedValue)
    (hm : mirrors p t = true)
    (hb : build SGF init p t st = some (plan, st'))
    (hdl : countDirect (st.allResults.take (leafCount p)) ≤ drs.length) :
    List.Forall₂
      (fun q s => q.isTuple = false ∧ s.isTuple = false ∧ mirrors q s = true)
      (pleaves p) (tleaves t) ∧
    (pleaves p).length = leafCount p ∧
    ∃ (rv : RValue) (drs' : List ManagedValue) (tr : List TraceEvent)
      (contribs : List LeafContrib),
      finish SGF plan t drs = some (rv, drs', tr) ∧
      contribs.length = leafCount p ∧
      contribs.map LeafContrib.desc = st.allResults.take (leafCount p) ∧
      st'.indirectResultAddrs = st.indirectResultAddrs ++
        (contribs.map LeafContrib.addrs).flatten ∧
      drs' = drs.drop (countDirect (st.allResults.take (leafCount p))) ∧
      drs.take (countDirect (st.allResults.take (leafCount p))) =
        (contribs.map LeafContrib.claimed).flatten ∧
      ∀ c ∈ contribs,
        (c.desc.indirect = true → c.claimed = [] ∧ c.addrs.length = 1) ∧
        (c.desc.indirect = false → c.addrs = [] ∧ c.claimed.length = 1) := by
  obtain ⟨-, l1, -⟩ := build_consumes SGF init p t st plan st' hb hm
  have hs := build_finish_spec SGF init p t st plan st' hb hm drs hdl
  unfold FinishSpec at hs
  obtain ⟨rv, drs', tr, contribs, hfin, hdesc, haddr, hdrop, htake, hcon,
    -, -⟩ := hs
  refine ⟨mirrors_leaves p t hm, pleaves_length p,
    rv, drs', tr, contribs, hfin, ?_, hdesc, haddr, hdrop, htake, hcon⟩
  have := congrArg List.length hdesc
  simpa [List.length_take, Nat.min_eq_left l1] using this

theorem c7_witness :
    (List.Forall₂
      (fun q s => q.isTuple = false ∧ s.isTuple = false ∧ mirrors q s = true)
      (pleaves (.tuple [.atom 0, .atom 1]))
      (tleaves (.tuple [.scalar 1, .scalar 2])) ∧
    (pleaves (.tuple [.atom 0, .atom 1])).length =
      leafCount (.tuple [.atom 0, .atom 1]) ∧
    ∃ (rv : RValue) (drs' : List ManagedValue) (tr : List TraceEvent)
      (contribs : List LeafContrib),
      finish (testEnv false false false false)
        (.tupleRValue [.scalar (some ⟨0, .scalar 1⟩) (.atom 0) none 0,
          .scalar none (.atom 1) none 0])
        (.tuple [.scalar 1, .scalar 2]) [⟨9, .scalar 2⟩] =
        some (rv, drs', tr) ∧
      contribs.length = leafCount (.tuple [.atom 0, .atom 1]) ∧
      contribs.map LeafContrib.desc =
        (⟨[⟨true, .scalar 1, .scalar 1⟩, ⟨false, .scalar 2, .scalar 2⟩], [], 0⟩ :
          ResultPlanBuilderState).allResults.take
            (leafCount (.tuple [.atom 0, .atom 1])) ∧
      (⟨[], [⟨0, .scalar 1⟩], 1⟩ :
        ResultPlanBuilderState).indirectResultAddrs =
        (⟨[⟨true, .scalar 1, .scalar 1⟩, ⟨false, .scalar 2, .scalar 2⟩], [], 0⟩ :
          ResultPlanBuilderState).indirectResultAddrs ++
          (contribs.map LeafContrib.addrs).flatten ∧
      drs' = [⟨9, .scalar 2⟩].drop
        (countDirect
          ((⟨[⟨true, .scalar 1, .scalar 1⟩, ⟨false, .scalar 2, .scalar 2⟩], [],
            0⟩ : ResultPlanBuilderState).allResults.take
              (leafCount (.tuple [.atom 0, .atom 1])))) ∧
      ([⟨9, .scalar 2⟩] : List ManagedValue).take
        (countDirect
          ((⟨[⟨true, .scalar 1, .scalar 1⟩, ⟨false, .scalar 2, .scalar 2⟩], [],
            0⟩ : ResultPlanBuilderState).allResults.take
              (leafCount (.tuple [.atom 0, .atom 1])))) =
        (contribs.map LeafContrib.claimed).flatten ∧
      ∀ c ∈ contribs,
        (c.desc.indirect = true → c.claimed = [] ∧ c.addrs.length = 1) ∧
        (c.desc.indirect = false → c.addrs = [] ∧ c.claimed.length = 1)) := by
  exact c7_order_preservation (testEnv false false false false) none
    (.tuple [.atom 0, .atom 1]) (.tuple [.scalar 1, .scalar 2])
    ⟨[⟨true, .scalar 1, .scalar 1⟩, ⟨false, .scalar 2, .scalar 2⟩], [], 0⟩
    (.tupleRValue [.scalar (some ⟨0, .scalar 1⟩) (.atom 0) none 0,
      .scalar none (.atom 1) none 0])
    ⟨[], [⟨0, .scalar 1⟩], 1⟩
    [⟨9, .scalar 2⟩]
    rfl
    (by simp [build, buildForTuple, buildElts, buildScalar, testEnv,
      TemporaryInitialization.getAddress])
    (by simp [countDirect, leafCount, leafCountL, List.countP_cons])

/-- C9: the pipeline-invariant violations abort as internal defects: a
tuple pattern against a non-tuple substituted type, an empty descriptor
queue at a non-tuple leaf, an exhausted direct-results cursor at a
temporary-less Scalar node, and a sub-plan of InitFromTemporary or
TupleInitialization finishing with a not-used r-value all produce the
failure result; and when the invariants hold — the shapes mirror, the
destination satisfies the split contract, the lowering preserves tuple
shape, the queue holds at least one descriptor per leaf, and enough
direct values are supplied — both building and finalizing succeed, so the
abort branches are unreachable. -/
theorem c9_defects_abort_invariants_succeed :
    (∀ (SGF : SILGenFunction) (init : Option Initialization)
      (ps : List AbstractionPattern) (n : Nat) (st : ResultPlanBuilderState),
      build SGF init (.tuple ps) (.scalar n) st = none) ∧
    (∀ (SGF : SILGenFunction) (init : Option Initialization) (n : Nat)
      (t : CanType) (st : ResultPlanBuilderState),
      st.allResults = [] → build SGF init (.atom n) t st = none) ∧
    (∀ (SGF : SILGenFunction) (o : AbstractionPattern)
      (init : Option Initialization) (rep : SILFunctionTypeRepresentation)
      (t : CanType),
      finish SGF (.scalar none o init rep) t [] = none) ∧
    (∀ (SGF : SILGenFunction) (i : Initialization) (sub : ResultPlan)
      (tmp : TemporaryInitialization) (t : CanType)
      (drs dS : List ManagedValue) (rvS : RValue) (trS : List TraceEvent),
      finish SGF sub t drs = some (rvS, dS, trS) → rvS.isUsed = false →
      finish SGF (.initValueFromTemporary i sub tmp) t drs = none) ∧
    (∀ (SGF : SILGenFunction) (ti : Initialization)
      (eis : List Initialization) (sub : ResultPlan) (rest : List ResultPlan)
      (t : CanType) (ts : List CanType) (drs dS : List ManagedValue)
      (rvS : RValue) (trS : List TraceEvent),
      finish SGF sub t drs = some (rvS, dS, trS) → rvS.isUsed = false →
      finish SGF (.tupleInitialization ti eis (sub :: rest)) (.tuple (t :: ts))
        drs = none) ∧
    (∀ (SGF : SILGenFunction) (init : Option Initialization)
      (p : AbstractionPattern) (t : CanType) (st : ResultPlanBuilderState),
      (∀ q s, mirrors q s = true →
        mirrors q ((SGF.getTypeLowering s).loweredType) = true) →
      mirrors p t = true → initOK init p t = true →
      leafCount p ≤ st.allResults.length →
      (build SGF init p t st).isSome = true) ∧
    (∀ (SGF : SILGenFunction) (init : Option Initialization)
      (p : AbstractionPattern) (t : CanType) (st : ResultPlanBuilderState)
      (plan : ResultPlan) (st' : ResultPlanBuilderState)
      (drs : List ManagedValue),
      build SGF init p t st = some (plan, st') → mirrors p t = true →
      countDirect (st.allResults.take (leafCount p)) ≤ drs.length →
      (finish SGF plan t drs).isSome = true) := by
  refine ⟨?_, ?_, ?_, ?_, ?_, ?_, ?_⟩
  · intro SGF init ps n st
    exact build_tuple_scalar_eq SGF init ps n st
  · intro SGF init n t st hq
    exact build_atom_empty SGF init n t st hq
  · intro SGF o init rep t
    simp [finish]
  · intro SGF i sub tmp t drs dS rvS trS hfin hu
    rw [finish_initFromTemp_eq, hfin]
    simp [hu]
  · intro SGF ti eis sub rest t ts drs dS rvS trS hfin hu
    rw [finish_tupleInit_eq, finishElts_cons_full_eq, hfin]
    simp [hu]
  · intro SGF init p t st hlow hm hok hlen
    exact build_total SGF hlow init p t st hm hok hlen
  · intro SGF init p t st plan st' drs hb hm hdl
    have hs := build_finish_spec SGF init p t st plan st' hb hm drs hdl
    unfold FinishSpec at hs
    obtain ⟨rv, drs', tr, contribs, hfin, -⟩ := hs
    rw [hfin]
    rfl

theorem c9_witness :
    (build (testEnv false false false false) none (.tuple [.atom 0])
      (.scalar 5) ⟨[⟨false, .scalar 5, .scalar 5⟩], [], 0⟩ = none) ∧
    (build (testEnv false false false false) none (.atom 0) (.scalar 5)
      ⟨[], [], 0⟩ = none) ∧
    (finish (testEnv false false false false)
      (.scalar none (.atom 0) none 0) (.scalar 5) [] = none) ∧
    (finish (testEnv false false false false)
      (.initValueFromTemporary (.mk 3 none false [])
        (.scalar none (.atom 0) none 0) ⟨0, .scalar 5⟩)
      (.scalar 5) [⟨1, .scalar 5⟩] = none) ∧
    ((build (testEnv false false false false) none (.atom 0) (.scalar 5)
      ⟨[⟨false, .scalar 5, .scalar 5⟩], [], 0⟩).isSome = true) ∧
    ((finish (testEnv false false false false)
      (.scalar none (.atom 0) none 0) (.scalar 5)
      [⟨1, .scalar 5⟩]).isSome = true) := by
  refine ⟨?_, ?_, ?_, ?_, ?_, ?_⟩
  · exact c9_defects_abort_invariants_succeed.1 _ _ _ _ _
  · exact c9_defects_abort_invariants_succeed.2.1 _ _ _ _ _ rfl
  · exact c9_defects_abort_invariants_succeed.2.2.1 _ _ _ _ _
  · exact c9_defects_abort_invariants_succeed.2.2.2.1
      (testEnv false false false false) (.mk 3 none false [])
      (.scalar none (.atom 0) none 0) ⟨0, .scalar 5⟩ (.scalar 5)
      [⟨1, .scalar 5⟩] [] (.scalar ⟨1, .scalar 5⟩) []
      (by simp [finish, scalarAfterClaim, scalarStore, testEnv]) rfl
  · exact c9_defects_abort_invariants_succeed.2.2.2.2.2.1 _ _ _ _ _
      (by intro q s h; simpa [testEnv] using h) rfl (initOK_none_eq _ _)
      (by simp [leafCount])
  · exact c9_defects_abort_invariants_succeed.2.2.2.2.2.2
      (testEnv false false false false) none (.atom 0)
      (.scalar 5) ⟨[⟨false, .scalar 5, .scalar 5⟩], [], 0⟩
      (.scalar none (.atom 0) none 0) ⟨[], [], 0⟩ [⟨1, .scalar 5⟩]
      (by simp [build, buildScalar, testEnv]) rfl
      (by simp [countDirect, leafCount, List.countP_cons])
